import Mathlib

/-!
Verification of the ReactOS setup-library INI cache
(`base/setup/lib/utils/inicache.c`).

Shallow embedding conventions:

* A null-terminated character buffer (`PCHAR`) is modelled as a `List Char`
  holding exactly the characters strictly before the first NUL byte; reaching
  the end of the list models reaching the terminator.  The few places where
  the C code steps past the terminator and keeps reading (e.g. the
  unconditional `Ptr++` in `IniCacheSkipToNextSection` after hitting the
  terminator) are modelled as if the bytes past the terminator were further
  NULs, except for the unchecked quoted-value scan in `IniCacheGetKeyValue`,
  whose past-the-end access is modelled explicitly (`GetValueResult.pastEnd`).
* Wide (`PWSTR`) and narrow (`PCHAR`) text both become `List Char`; the
  ANSI/UNICODE conversion performed by `_snwprintf(.., L"%.*S", ..)` and
  `sprintf("%S", ..)` on the spans involved is the identity on this model.
* `_wcsicmp(a, b) == 0` is modelled by comparing the `Char.toLower` images
  (ASCII inputs, "C" locale).
* Heap allocation is modelled as always succeeding, except in
  `IniCacheAddKeyAorWEx`, which takes an explicit allocation oracle so that
  the failure paths of `IniCacheAddKeyAorW` can be examined.
* Linked-list nodes are modelled positionally: a section is its index in the
  cache's section list, a key is its index in the section's key list.
-/

set_option linter.unusedVariables false

abbrev WStr := List Char

/-- `isspace` of the C "C" locale on the ASCII range: space, TAB, LF, VT, FF, CR. -/
def isspace (c : Char) : Bool :=
  c = ' ' || c = '\t' || c = '\n' || c = '\x0b' || c = '\x0c' || c = '\r'

/-- `INI_KEYWORD`: a name/value pair (both stored as wide strings). -/
structure INI_KEYWORD where
  name : WStr
  data : WStr
deriving DecidableEq

/-- `INI_SECTION`: a named, ordered list of keys. -/
structure INI_SECTION where
  name : WStr
  keys : List INI_KEYWORD
deriving DecidableEq

/-- `INICACHE`: the ordered list of sections. -/
abbrev INICACHE := List INI_SECTION

/-- `_wcsicmp(a, b) == 0`: case-insensitive string equality. -/
def wcsicmpEq (a b : WStr) : Bool :=
  a.map Char.toLower == b.map Char.toLower

/-- `IniCacheFindSection`: index of the first section whose name matches
case-insensitively, scanning in insertion order. -/
def IniCacheFindSection : INICACHE → WStr → Option Nat
  | [], _ => none
  | s :: rest, Name =>
    if wcsicmpEq s.name Name then some 0
    else (IniCacheFindSection rest Name).map (· + 1)

/-- `IniCacheFindKey`: first key of the section whose name matches
case-insensitively, returned together with its position. -/
def IniCacheFindKey : List INI_KEYWORD → WStr → Option (Nat × INI_KEYWORD)
  | [], _ => none
  | k :: rest, Name =>
    if wcsicmpEq k.name Name then some (0, k)
    else (IniCacheFindKey rest Name).map (fun p => (p.1 + 1, p.2))

/-- `INSERTION_TYPE` of `inicache.h`. -/
inductive INSERTION_TYPE where
  | INSERT_FIRST
  | INSERT_BEFORE
  | INSERT_LAST
  | INSERT_AFTER
deriving DecidableEq

/-- The `AnchorKey` argument of `IniCacheAddKeyAorW`: either the NULL pointer,
a pointer to the key at position `i` of the target section, or a pointer to a
key that is not part of the target section ("foreign").  A foreign anchor
stands for a key that is strictly interior to its own section's list (the
boundary cases dereference a NULL `Prev`/`Next` link in the source). -/
inductive ANCHOR where
  | nullAnchor
  | inSection (i : Nat)
  | foreign
deriving DecidableEq

/-- The `PINI_KEYWORD` return value of `IniCacheAddKeyAorW`: NULL, a pointer
to the key now at position `i` of the target section, or a pointer to a key
that is not part of the target section (a foreign splice). -/
inductive KEYRET where
  | nullRet
  | atIndex (i : Nat)
  | outside
deriving DecidableEq

/-- Splice an element in before position `i` of a list. -/
def insertAt (i : Nat) (a : α) (l : List α) : List α :=
  l.take i ++ a :: l.drop i

/-- `IniCacheAddKeyAorW`, with an explicit allocation oracle: `alloc n` tells
whether the `n`-th `RtlAllocateHeap` call inside this invocation succeeds
(0: the name buffer; then 1: the data buffer when updating an existing key,
or 1: the key node and 2: the data buffer when creating a new one).
The `Section` argument is its key list; the function returns the
`PINI_KEYWORD` result and the section's key list afterwards. -/
def IniCacheAddKeyAorWEx (alloc : Nat → Bool) (keys : List INI_KEYWORD)
    (AnchorKey : ANCHOR) (InsertionType : INSERTION_TYPE)
    (Name Data : WStr) : KEYRET × List INI_KEYWORD :=
  if Name = [] ∨ Data = [] then (.nullRet, keys)
  else if alloc 0 = false then (.nullRet, keys)
  else
    match IniCacheFindKey keys Name with
    | some (i, k) =>
      -- A key with this name exists: replace its data in place
      -- (if allocating the new data buffer fails, the key is not modified).
      if alloc 1 = false then (.nullRet, keys)
      else (.atIndex i, keys.set i ⟨k.name, Data⟩)
    | none =>
      if alloc 1 = false then (.nullRet, keys)
      else if alloc 2 = false then (.nullRet, keys)
      else
        if keys = [] then (.atIndex 0, [⟨Name, Data⟩])
        else if InsertionType = .INSERT_FIRST ∨
            (InsertionType = .INSERT_BEFORE ∧
              (AnchorKey = .nullAnchor ∨ AnchorKey = .inSection 0)) then
          (.atIndex 0, ⟨Name, Data⟩ :: keys)
        else if InsertionType = .INSERT_BEFORE ∧ AnchorKey ≠ .nullAnchor then
          match AnchorKey with
          | .inSection i => (.atIndex i, insertAt i ⟨Name, Data⟩ keys)
          | _ => (.outside, keys)        -- spliced into the anchor's own list
        else if InsertionType = .INSERT_LAST ∨
            (InsertionType = .INSERT_AFTER ∧
              (AnchorKey = .nullAnchor ∨ AnchorKey = .inSection (keys.length - 1))) then
          (.atIndex keys.length, keys ++ [⟨Name, Data⟩])
        else if InsertionType = .INSERT_AFTER ∧ AnchorKey ≠ .nullAnchor then
          match AnchorKey with
          | .inSection i => (.atIndex (i + 1), insertAt (i + 1) ⟨Name, Data⟩ keys)
          | _ => (.outside, keys)        -- spliced into the anchor's own list
        else (.outside, keys)            -- unreachable: all four types covered

/-- `IniCacheAddKeyAorW` with all allocations succeeding. -/
def IniCacheAddKeyAorW (keys : List INI_KEYWORD) (AnchorKey : ANCHOR)
    (InsertionType : INSERTION_TYPE) (Name Data : WStr) :
    KEYRET × List INI_KEYWORD :=
  IniCacheAddKeyAorWEx (fun _ => true) keys AnchorKey InsertionType Name Data

/-- `IniCacheAddSectionAorW`: returns `none` when the function returns NULL
(empty name; a NULL cache pointer and allocation failure are out of the
model), otherwise the index of the returned section and the cache afterwards.
An existing case-insensitive match is returned unchanged; otherwise a new
empty section is appended at the tail. -/
def IniCacheAddSectionAorW (Cache : INICACHE) (Name : WStr) :
    Option (Nat × INICACHE) :=
  if Name = [] then none
  else
    match IniCacheFindSection Cache Name with
    | some i => some (i, Cache)
    | none => some (Cache.length, Cache ++ [⟨Name, []⟩])

/-! ## The text scanner -/

/-- `IniCacheSkipWhitespace`: advance past whitespace; NULL (here `none`)
when the terminator is reached. -/
def IniCacheSkipWhitespace (Ptr : WStr) : Option WStr :=
  match Ptr.dropWhile isspace with
  | [] => none
  | r => some r

/-- Characters that do not end a line scan (`*Ptr != '\n'`). -/
def notNl (c : Char) : Bool := c != '\n'

/-- Characters that do not close a section name (`*Ptr != ']'`). -/
def notRBracket (c : Char) : Bool := c != ']'

/-- Characters that may appear in a key name
(`!isspace(*Ptr) && *Ptr != '=' && *Ptr != ';'`). -/
def keyNameChar (c : Char) : Bool := !isspace c && c != '=' && c != ';'

/-- Characters before the end of the current line
(`*Ptr != '\r' && *Ptr != '\n'`). -/
def notEol (c : Char) : Bool := c != '\r' && c != '\n'

/-- Characters that may appear in an unquoted value
(`*Ptr != '\r' && *Ptr != ';'`). -/
def valueChar (c : Char) : Bool := c != '\r' && c != ';'

/-- Characters that do not close a quoted value (`*Ptr != '"'`). -/
def notQuote (c : Char) : Bool := c != '"'

/-- `IniCacheSkipToNextSection`, fuelled.  Each outer-loop iteration consumes
at least one character, so `Ptr.length + 1` fuel always suffices.  When the
inner line scan hits the terminator the source still executes `Ptr++` and
keeps reading; this is modelled as if NUL bytes followed the terminator. -/
def IniCacheSkipToNextSectionF : Nat → WStr → Option WStr
  | 0, _ => none
  | _ + 1, [] => none
  | n + 1, c :: rest =>
    if c = '[' then some (c :: rest)
    else IniCacheSkipToNextSectionF n (((c :: rest).dropWhile notNl).tail)

/-- `IniCacheSkipToNextSection`: advance line by line until a `[` or the
terminator. -/
def IniCacheSkipToNextSection (Ptr : WStr) : Option WStr :=
  IniCacheSkipToNextSectionF (Ptr.length + 1) Ptr

/-- `IniCacheGetSectionName`: called with `Ptr` just past the `[`.  Skips
whitespace, takes the name up to `]` (or the terminator), then discards the
remainder of the header line.  Returns the name span and the next cursor. -/
def IniCacheGetSectionName (Ptr : WStr) : WStr × WStr :=
  ((Ptr.dropWhile isspace).takeWhile notRBracket,
    (((((Ptr.dropWhile isspace).dropWhile notRBracket).tail).dropWhile notNl).tail))

/-- `IniCacheGetKeyName`, fuelled.  Each repetition of the outer loop skips a
full-line comment and consumes at least the `;`, so `Ptr.length + 1` fuel
always suffices.  An empty returned name models `*NamePtr == NULL`. -/
def IniCacheGetKeyNameF : Nat → WStr → WStr × WStr
  | 0, Ptr => ([], Ptr)
  | n + 1, Ptr =>
    match Ptr.dropWhile isspace with
    | [] => ([], [])
    | c :: p =>
      if (((c :: p).dropWhile keyNameChar).head? = some ';') then
        IniCacheGetKeyNameF n (((c :: p).dropWhile keyNameChar).dropWhile notEol)
      else ((c :: p).takeWhile keyNameChar, (c :: p).dropWhile keyNameChar)

/-- `IniCacheGetKeyName`: skip blank lines and full-line `;` comments, then
take a key name up to whitespace, `=`, or `;`. -/
def IniCacheGetKeyName (Ptr : WStr) : WStr × WStr :=
  IniCacheGetKeyNameF (Ptr.length + 1) Ptr

/-- Result of `IniCacheGetKeyValue`: NULL returned (no `=`), a value span
with the next cursor, or the unchecked quoted scan running past the buffer's
terminator. -/
inductive GetValueResult where
  | noValue
  | value (Data rest : WStr)
  | pastEnd
deriving DecidableEq

/-- The end-of-line hop `if (*Ptr == '\r') Ptr++; if (*Ptr == '\n') Ptr++;`. -/
def skipNewLine (l : WStr) : WStr :=
  if l.head? = some '\r' then
    if l.tail.head? = some '\n' then l.tail.tail else l.tail
  else if l.head? = some '\n' then l.tail else l

/-- `IniCacheGetKeyValue`: skip whitespace, require `=`, skip whitespace;
a `"`-opened value in quoted mode runs to the next `"` (the scan has no
terminator check: with no closing quote it reads past the end of the buffer,
`GetValueResult.pastEnd`) and the rest of the line is discarded; otherwise
the value runs up to CR, `;` or the terminator. -/
def IniCacheGetKeyValue (Ptr : WStr) (String : Bool) : GetValueResult :=
  match Ptr.dropWhile isspace with
  | [] => GetValueResult.noValue
  | c :: p2 =>
    if c = '=' then
      if String = true ∧ (p2.dropWhile isspace).head? = some '"' then
        if (p2.dropWhile isspace).tail.contains '"' then
          GetValueResult.value ((p2.dropWhile isspace).tail.takeWhile notQuote)
            (skipNewLine ((((p2.dropWhile isspace).tail.dropWhile notQuote).tail).dropWhile notEol))
        else GetValueResult.pastEnd
      else
        GetValueResult.value ((p2.dropWhile isspace).takeWhile valueChar)
          (skipNewLine ((p2.dropWhile isspace).dropWhile valueChar))
    else GetValueResult.noValue

/-! ## Loading -/

/-- `NTSTATUS`, restricted to the statuses this code produces plus an opaque
failure code for statuses propagated from the external I/O layer. -/
inductive NTSTATUS where
  | success
  | invalidParameter
  | insufficientResources
  | ioError (code : Nat)
deriving DecidableEq

/-- `NT_SUCCESS`. -/
def NT_SUCCESS : NTSTATUS → Bool
  | .success => true
  | _ => false

/-- The parse loop of `IniCacheLoadFromMemory`, fuelled (each iteration
consumes at least one character, so `Ptr.length + 1` fuel always suffices).
`Sec` is the current-section pointer, `none` for NULL.  The result is `none`
exactly when the quoted-value scan runs past the buffer (undefined behavior
in the source); otherwise it is the final section list. -/
def IniCacheLoadLoop : Nat → INICACHE → Option Nat → WStr → Bool → Option INICACHE
  | 0, Cache, _, _, _ => some Cache
  | n + 1, Cache, Sec, Ptr, String =>
    match IniCacheSkipWhitespace Ptr with
    | none => some Cache
    | some [] => some Cache   -- unreachable: the skip never yields an empty cursor
    | some (c :: p1) =>
      if c = '[' then
        match IniCacheAddSectionAorW Cache (IniCacheGetSectionName p1).1 with
        | none =>
          -- empty section name: IniCacheAddSectionAorW failed;
          -- skip to the next section with the current section reset to NULL
          match IniCacheSkipToNextSection (IniCacheGetSectionName p1).2 with
          | none => some Cache
          | some r2 => IniCacheLoadLoop n Cache none r2 String
        | some (i, Cache2) =>
          IniCacheLoadLoop n Cache2 (some i) (IniCacheGetSectionName p1).2 String
      else
        match Sec with
        | none =>
          match IniCacheSkipToNextSection (c :: p1) with
          | none => some Cache
          | some r2 => IniCacheLoadLoop n Cache none r2 String
        | some i =>
          match IniCacheGetKeyValue (IniCacheGetKeyName (c :: p1)).2 String with
          | .noValue => some Cache        -- Ptr == NULL: the loop terminates
          | .pastEnd => none
          | .value KeyValue p3 =>
            IniCacheLoadLoop n
              (match Cache.get? i with
               | some s =>
                 Cache.set i
                   ⟨s.name, (IniCacheAddKeyAorW s.keys .nullAnchor .INSERT_LAST
                               (IniCacheGetKeyName (c :: p1)).1 KeyValue).2⟩
               | none => Cache)
              (some i) p3 String

/-- The parse loop with its canonical fuel `Ptr.length + 1`, which always
suffices (each iteration consumes at least one character). -/
def iniParse (Cache : INICACHE) (Sec : Option Nat) (Ptr : WStr)
    (String : Bool) : Option INICACHE :=
  IniCacheLoadLoop (Ptr.length + 1) Cache Sec Ptr String

/-- `IniCacheLoadFromMemory` (the cache-header allocation is modelled as
succeeding; on allocation failure the source returns
`STATUS_INSUFFICIENT_RESOURCES` instead).  `none` models the undefined
behavior of the unchecked quoted-value scan. -/
def IniCacheLoadFromMemory (FileBuffer : WStr) (String : Bool) :
    Option (NTSTATUS × INICACHE) :=
  (iniParse [] none FileBuffer String).map (fun c => (NTSTATUS.success, c))

/-- `IniCacheLoadByHandle`: the external `NtQueryInformationFile` and
`NtReadFile` collaborators are abstracted by their result statuses; `buf` is
the byte content they deliver on success.  The second component models
`*Cache` (`none` = NULL). -/
def IniCacheLoadByHandle (queryStatus readStatus : NTSTATUS) (buf : WStr)
    (String : Bool) : Option (NTSTATUS × Option INICACHE) :=
  if NT_SUCCESS queryStatus = false then some (queryStatus, none)
  else if NT_SUCCESS readStatus = false then some (readStatus, none)
  else (IniCacheLoadFromMemory buf String).map (fun r => (r.1, some r.2))

/-! ## Lookup and mutation façade -/

/-- `IniGetSection` (`none` arguments model NULL pointers). -/
def IniGetSection (Cache : Option INICACHE) (Name : Option WStr) : Option Nat :=
  match Cache, Name with
  | some c, some n => IniCacheFindSection c n
  | _, _ => none

/-- `IniGetKey`: `Section` is the section's key list (`none` = NULL section),
`KeyDataValid` models whether the `KeyData` out-pointer is non-NULL.  Returns
the status and the value stored through `KeyData` (`none` = left NULL). -/
def IniGetKey (Section : Option (List INI_KEYWORD)) (KeyName : Option WStr)
    (KeyDataValid : Bool) : NTSTATUS × Option WStr :=
  match Section, KeyName, KeyDataValid with
  | some keys, some n, true =>
    match IniCacheFindKey keys n with
    | none => (.invalidParameter, none)
    | some (_, k) => (.success, some k.data)
  | _, _, _ => (.invalidParameter, none)

/-- `IniInsertKey` (`none` name/data model NULL pointers; a NULL section is
out of the model). -/
def IniInsertKey (keys : List INI_KEYWORD) (AnchorKey : ANCHOR)
    (InsertionType : INSERTION_TYPE) (Name Data : Option WStr) :
    KEYRET × List INI_KEYWORD :=
  match Name, Data with
  | some n, some d =>
    if n = [] ∨ d = [] then (.nullRet, keys)
    else IniCacheAddKeyAorW keys AnchorKey InsertionType n d
  | _, _ => (.nullRet, keys)

/-- `IniAddKey` = `IniInsertKey(Section, NULL, INSERT_LAST, ..)`. -/
def IniAddKey (keys : List INI_KEYWORD) (Name Data : Option WStr) :
    KEYRET × List INI_KEYWORD :=
  IniInsertKey keys .nullAnchor .INSERT_LAST Name Data

/-! ## Saving -/

/-- One `Name=Value\r\n` line of `IniCacheSaveByHandle`'s buffer fill. -/
def keyLineText (k : INI_KEYWORD) : WStr :=
  k.name ++ '=' :: (k.data ++ ['\r', '\n'])

/-- The inner key loop of `IniCacheSaveByHandle`'s buffer fill. -/
def keysText : List INI_KEYWORD → WStr
  | [] => []
  | k :: rest => keyLineText k ++ keysText rest

/-- The buffer-fill stage of `IniCacheSaveByHandle`: `[Name]\r\n`, the key
lines, and an extra `\r\n` after each section that is followed by another
(`if (Section != NULL)` on the advanced pointer). -/
def IniCacheSaveText : INICACHE → WStr
  | [] => []
  | s :: rest =>
    ('[' :: (s.name ++ ']' :: ['\r', '\n'])) ++ keysText s.keys ++
      match rest with
      | [] => []
      | _ :: _ => '\r' :: '\n' :: IniCacheSaveText rest

/-- The specification's rendering (§4.4): for each section in order emit
`[Name]` and a line terminator, then each key as `Name=Value` with a line
terminator, with one blank line between consecutive sections and none after
the last, and no quoting or escaping applied to any value. -/
def IniCacheSaveTextSpec (Cache : INICACHE) : WStr :=
  List.intercalate ['\r', '\n']
    (Cache.map (fun s =>
      ('[' :: (s.name ++ ']' :: ['\r', '\n'])) ++
        (s.keys.map (fun k => k.name ++ '=' :: (k.data ++ ['\r', '\n']))).flatten))

/-- `IniCacheCreate`: an empty cache. -/
def IniCacheCreate : INICACHE := []

/-! ## Invariants of loaded caches

These predicates describe the shape of every cache built by
`IniCacheLoadFromMemory` in non-quoted mode; they are what makes the
save/re-load round trip work. -/

/-- A section name as produced by `IniCacheGetSectionName`: non-empty, does
not start with whitespace, contains no `]`. -/
def goodSectionName (n : WStr) : Prop :=
  n ≠ [] ∧ (∀ c, n.head? = some c → isspace c = false) ∧ ']' ∉ n

/-- A key name as produced by `IniCacheGetKeyName`: non-empty and built from
characters that are not whitespace, `=` or `;`. -/
def goodKeyName (n : WStr) : Prop :=
  n ≠ [] ∧ ∀ c ∈ n, keyNameChar c = true

/-- A key value as produced by `IniCacheGetKeyValue` in non-quoted mode:
non-empty, free of CR and `;`, and not starting with whitespace. -/
def goodKeyData (d : WStr) : Prop :=
  d ≠ [] ∧ (∀ c ∈ d, valueChar c = true) ∧
    (∀ c, d.head? = some c → isspace c = false)

/-- Well-formed key. -/
def WFKey (k : INI_KEYWORD) : Prop :=
  goodKeyName k.name ∧ goodKeyData k.data

/-- Key names of one section are pairwise case-insensitively distinct. -/
def keysDistinct (ks : List INI_KEYWORD) : Prop :=
  List.Pairwise (fun a b => wcsicmpEq a.name b.name = false) ks

/-- Well-formed section. -/
def WFSection (s : INI_SECTION) : Prop :=
  goodSectionName s.name ∧ (∀ k ∈ s.keys, WFKey k) ∧ keysDistinct s.keys

/-- Section names are pairwise case-insensitively distinct. -/
def sectionsDistinct (c : INICACHE) : Prop :=
  List.Pairwise (fun a b => wcsicmpEq a.name b.name = false) c

/-- Well-formed cache. -/
def WFCache (c : INICACHE) : Prop :=
  (∀ s ∈ c, WFSection s) ∧ sectionsDistinct c

/-- No key name starts with `[`.  The parser can produce such keys (a `;`
comment line directly followed by a `[...]` line makes `IniCacheGetKeyName`
swallow the header as a key name), and they re-serialize as section
headers. -/
def noBracketKeys (c : INICACHE) : Prop :=
  ∀ s ∈ c, ∀ k ∈ s.keys, k.name.head? ≠ some '['

/-! ## List helpers -/

theorem len_dropWhile_le (p : α → Bool) (l : List α) :
    (l.dropWhile p).length ≤ l.length := by
  induction l with
  | nil => simp
  | cons a t ih =>
    by_cases h : p a
    · simp [List.dropWhile_cons, h]; omega
    · simp [List.dropWhile_cons, h]

theorem len_tail_le (l : List α) : l.tail.length ≤ l.length - 1 := by
  cases l <;> simp

theorem len_dropWhile_tail_le (p : α → Bool) (l : List α) :
    ((l.dropWhile p).tail).length ≤ l.length - 1 := by
  have h1 := len_dropWhile_le p l
  have h2 := len_tail_le (l.dropWhile p)
  omega

theorem mem_of_mem_takeWhile (p : α → Bool) (l : List α) (a : α)
    (h : a ∈ l.takeWhile p) : p a = true ∧ a ∈ l := by
  induction l with
  | nil => simp at h
  | cons b t ih =>
    by_cases hb : p b
    · simp [List.takeWhile_cons, hb] at h
      rcases h with h | h
      · subst h; exact ⟨hb, by simp⟩
      · rcases ih h with ⟨h1, h2⟩; exact ⟨h1, by simp [h2]⟩
    · simp [List.takeWhile_cons, hb] at h

theorem head_dropWhile_false (p : α → Bool) (l : List α) (a : α) (r : List α)
    (h : l.dropWhile p = a :: r) : p a = false := by
  induction l with
  | nil => simp at h
  | cons b t ih =>
    by_cases hb : p b
    · simp [List.dropWhile_cons, hb] at h; exact ih h
    · simp [List.dropWhile_cons, hb] at h
      rcases h with ⟨rfl, -⟩
      simpa using hb

theorem takeWhile_append_stop (p : α → Bool) (l : List α) (b : α) (r : List α)
    (hl : ∀ a ∈ l, p a = true) (hb : p b = false) :
    (l ++ b :: r).takeWhile p = l := by
  induction l with
  | nil => simp [List.takeWhile_cons, hb]
  | cons a t ih =>
    have ha : p a = true := hl a (by simp)
    simp only [List.cons_append, List.takeWhile_cons, ha]
    simp only [if_true]
    rw [ih (fun x hx => hl x (by simp [hx]))]

theorem dropWhile_append_stop (p : α → Bool) (l : List α) (b : α) (r : List α)
    (hl : ∀ a ∈ l, p a = true) (hb : p b = false) :
    (l ++ b :: r).dropWhile p = b :: r := by
  induction l with
  | nil => simp [List.dropWhile_cons, hb]
  | cons a t ih =>
    have ha : p a = true := hl a (by simp)
    simp only [List.cons_append, List.dropWhile_cons, ha]
    simp only [if_true]
    exact ih (fun x hx => hl x (by simp [hx]))

theorem dropWhile_cons_false (p : α → Bool) (a : α) (l : List α)
    (h : p a = false) : (a :: l).dropWhile p = a :: l := by
  simp [List.dropWhile_cons, h]

theorem takeWhile_all (p : α → Bool) (l : List α) (hl : ∀ a ∈ l, p a = true) :
    l.takeWhile p = l := by
  induction l with
  | nil => rfl
  | cons a t ih =>
    have ha := hl a (by simp)
    simp only [List.takeWhile_cons, ha, if_true]
    rw [ih (fun x hx => hl x (by simp [hx]))]

theorem set_append_singleton (l : List α) (a b : α) :
    (l ++ [a]).set l.length b = l ++ [b] := by
  induction l with
  | nil => rfl
  | cons x t ih => simp [List.set, ih]

/-! ## Scanner length bounds -/

theorem skipWhitespace_eq_some (l p : WStr) (h : IniCacheSkipWhitespace l = some p) :
    p = l.dropWhile isspace ∧ p ≠ [] := by
  unfold IniCacheSkipWhitespace at h
  cases hd : l.dropWhile isspace with
  | nil => rw [hd] at h; simp at h
  | cons c r => rw [hd] at h; simp at h; simp [← h, hd]

theorem skipWhitespace_le (l p : WStr) (h : IniCacheSkipWhitespace l = some p) :
    p.length ≤ l.length := by
  rcases skipWhitespace_eq_some l p h with ⟨rfl, -⟩
  exact len_dropWhile_le _ _

theorem getSectionName_le (l : WStr) :
    (IniCacheGetSectionName l).2.length ≤ l.length := by
  unfold IniCacheGetSectionName
  have h1 := len_dropWhile_le isspace l
  have h2 := len_dropWhile_tail_le notRBracket (l.dropWhile isspace)
  have h3 := len_dropWhile_tail_le notNl
    (((l.dropWhile isspace).dropWhile notRBracket).tail)
  simp only []
  omega

theorem skipNewLine_le (l : WStr) : (skipNewLine l).length ≤ l.length := by
  unfold skipNewLine
  have h1 := len_tail_le l
  have h2 := len_tail_le l.tail
  split
  · split
    · omega
    · omega
  · split
    · omega
    · exact le_refl _

theorem stnsF_le : ∀ (n : Nat) (l r : WStr),
    IniCacheSkipToNextSectionF n l = some r → r.length ≤ l.length := by
  intro n
  induction n with
  | zero => intro l r h; simp [IniCacheSkipToNextSectionF] at h
  | succ n ih =>
    intro l r h
    cases l with
    | nil => simp [IniCacheSkipToNextSectionF] at h
    | cons c t =>
      unfold IniCacheSkipToNextSectionF at h
      by_cases hc : c = '['
      · simp [hc] at h; simp [← h]
      · simp only [hc, if_false] at h
        have h1 := ih _ _ h
        have h2 := len_dropWhile_tail_le notNl (c :: t)
        simp only [List.length_cons] at h2 ⊢
        omega

theorem stns_le (l r : WStr) (h : IniCacheSkipToNextSection l = some r) :
    r.length ≤ l.length :=
  stnsF_le _ _ _ h

theorem stnsF_congr : ∀ (k : Nat) (l : WStr), l.length ≤ k →
    ∀ n m, l.length < n → l.length < m →
    IniCacheSkipToNextSectionF n l = IniCacheSkipToNextSectionF m l := by
  intro k
  induction k with
  | zero =>
    intro l hl n m hn hm
    have : l = [] := List.eq_nil_of_length_eq_zero (Nat.le_zero.mp hl)
    subst this
    obtain ⟨n', rfl⟩ : ∃ n', n = n' + 1 := ⟨n - 1, by omega⟩
    obtain ⟨m', rfl⟩ : ∃ m', m = m' + 1 := ⟨m - 1, by omega⟩
    rfl
  | succ k ih =>
    intro l hl n m hn hm
    obtain ⟨n', rfl⟩ : ∃ n', n = n' + 1 := ⟨n - 1, by omega⟩
    obtain ⟨m', rfl⟩ : ∃ m', m = m' + 1 := ⟨m - 1, by omega⟩
    cases l with
    | nil => rfl
    | cons c t =>
      unfold IniCacheSkipToNextSectionF
      by_cases hc : c = '['
      · simp [hc]
      · simp only [hc, if_false]
        have hlen := len_dropWhile_tail_le notNl (c :: t)
        simp only [List.length_cons] at hl hn hm hlen
        exact ih _ (by omega) n' m' (by omega) (by omega)

theorem stns_lt (c : Char) (t r : WStr) (hc : c ≠ '[')
    (h : IniCacheSkipToNextSection (c :: t) = some r) :
    r.length < (c :: t).length := by
  unfold IniCacheSkipToNextSection IniCacheSkipToNextSectionF at h
  simp only [hc, if_false] at h
  have h1 := stnsF_le _ _ _ h
  have h2 := len_dropWhile_tail_le notNl (c :: t)
  simp only [List.length_cons] at h1 h2 ⊢
  omega


theorem gknF_rest_le : ∀ (n : Nat) (l : WStr),
    (IniCacheGetKeyNameF n l).2.length ≤ l.length := by
  intro n
  induction n with
  | zero => intro l; simp [IniCacheGetKeyNameF]
  | succ n ih =>
    intro l
    unfold IniCacheGetKeyNameF
    cases hd : l.dropWhile isspace with
    | nil => simp
    | cons c p =>
      simp only []
      have hd_le : (c :: p).length ≤ l.length := by
        rw [← hd]; exact len_dropWhile_le _ _
      cases hq : (c :: p).dropWhile keyNameChar with
      | nil => simp
      | cons q0 qr =>
        have hq_le : (q0 :: qr).length ≤ (c :: p).length := by
          rw [← hq]; exact len_dropWhile_le _ _
        split
        · have h1 := ih ((q0 :: qr).dropWhile notEol)
          have h2 := len_dropWhile_le notEol (q0 :: qr)
          simp only [List.length_cons] at hd_le hq_le h2
          omega
        · simp only [List.length_cons] at hd_le hq_le ⊢
          omega

theorem getKeyName_rest_le (l : WStr) :
    (IniCacheGetKeyName l).2.length ≤ l.length :=
  gknF_rest_le _ _

theorem gknF_name_chars : ∀ (n : Nat) (l : WStr) (c : Char),
    c ∈ (IniCacheGetKeyNameF n l).1 → keyNameChar c = true := by
  intro n
  induction n with
  | zero => intro l c h; simp [IniCacheGetKeyNameF] at h
  | succ n ih =>
    intro l c h
    unfold IniCacheGetKeyNameF at h
    cases hd : l.dropWhile isspace with
    | nil => rw [hd] at h; simp at h
    | cons c0 p =>
      rw [hd] at h
      simp only [] at h
      cases hq : (c0 :: p).dropWhile keyNameChar with
      | nil =>
        rw [hq] at h
        exact (mem_of_mem_takeWhile _ _ _ h).1
      | cons q0 qr =>
        rw [hq] at h
        split at h
        · exact ih _ _ h
        · exact (mem_of_mem_takeWhile _ _ _ h).1

theorem getKeyName_name_chars (l : WStr) (c : Char)
    (h : c ∈ (IniCacheGetKeyName l).1) : keyNameChar c = true :=
  gknF_name_chars _ _ _ h

theorem getKeyValue_value_lt (l : WStr) (s : Bool) (d r : WStr)
    (h : IniCacheGetKeyValue l s = .value d r) : r.length < l.length := by
  unfold IniCacheGetKeyValue at h
  split at h
  · exact GetValueResult.noConfusion h
  · rename_i c p2 heq
    have hd_le : (c :: p2).length ≤ l.length := by
      rw [← heq]; exact len_dropWhile_le _ _
    split at h
    · split at h
      · -- quoted-mode branch
        split at h
        · simp only [GetValueResult.value.injEq] at h
          rcases h with ⟨-, hr⟩
          have h5 := skipNewLine_le
            ((((p2.dropWhile isspace).tail.dropWhile notQuote).tail).dropWhile notEol)
          have h6 := len_dropWhile_le notEol
            (((p2.dropWhile isspace).tail.dropWhile notQuote).tail)
          have h7 := len_tail_le ((p2.dropWhile isspace).tail.dropWhile notQuote)
          have h8 := len_dropWhile_le notQuote ((p2.dropWhile isspace).tail)
          have h9 := len_tail_le (p2.dropWhile isspace)
          have h10 := len_dropWhile_le isspace p2
          subst hr
          simp only [List.length_cons] at hd_le ⊢
          omega
        · exact GetValueResult.noConfusion h
      · -- unquoted branch
        simp only [GetValueResult.value.injEq] at h
        rcases h with ⟨-, hr⟩
        have h5 := skipNewLine_le ((p2.dropWhile isspace).dropWhile valueChar)
        have h6 := len_dropWhile_le valueChar (p2.dropWhile isspace)
        have h10 := len_dropWhile_le isspace p2
        subst hr
        simp only [List.length_cons] at hd_le ⊢
        omega
    · exact GetValueResult.noConfusion h

/-! ## One-step unfolding of the parse loop (fuelled form) -/

theorem loadLoopStep_end (n : Nat) (C : INICACHE) (S : Option Nat)
    (Ptr : WStr) (str : Bool)
    (h : IniCacheSkipWhitespace Ptr = none) :
    IniCacheLoadLoop (n + 1) C S Ptr str = some C := by
  simp only [IniCacheLoadLoop, h]

theorem loadLoopStep_section (n : Nat) (C : INICACHE) (S : Option Nat)
    (Ptr p1 : WStr) (str : Bool) (i : Nat) (C2 : INICACHE)
    (h : IniCacheSkipWhitespace Ptr = some ('[' :: p1))
    (h2 : IniCacheAddSectionAorW C (IniCacheGetSectionName p1).1 = some (i, C2)) :
    IniCacheLoadLoop (n + 1) C S Ptr str =
      IniCacheLoadLoop n C2 (some i) (IniCacheGetSectionName p1).2 str := by
  simp only [IniCacheLoadLoop, h, h2, if_true]

theorem loadLoopStep_section_fail_end (n : Nat) (C : INICACHE) (S : Option Nat)
    (Ptr p1 : WStr) (str : Bool)
    (h : IniCacheSkipWhitespace Ptr = some ('[' :: p1))
    (h2 : IniCacheAddSectionAorW C (IniCacheGetSectionName p1).1 = none)
    (h3 : IniCacheSkipToNextSection (IniCacheGetSectionName p1).2 = none) :
    IniCacheLoadLoop (n + 1) C S Ptr str = some C := by
  simp only [IniCacheLoadLoop, h, h2, h3, if_true]

theorem loadLoopStep_section_fail_skip (n : Nat) (C : INICACHE) (S : Option Nat)
    (Ptr p1 r2 : WStr) (str : Bool)
    (h : IniCacheSkipWhitespace Ptr = some ('[' :: p1))
    (h2 : IniCacheAddSectionAorW C (IniCacheGetSectionName p1).1 = none)
    (h3 : IniCacheSkipToNextSection (IniCacheGetSectionName p1).2 = some r2) :
    IniCacheLoadLoop (n + 1) C S Ptr str = IniCacheLoadLoop n C none r2 str := by
  simp only [IniCacheLoadLoop, h, h2, h3, if_true]

theorem loadLoopStep_orphan_end (n : Nat) (C : INICACHE) (Ptr : WStr)
    (c : Char) (p1 : WStr) (str : Bool) (hc : c ≠ '[')
    (h : IniCacheSkipWhitespace Ptr = some (c :: p1))
    (h3 : IniCacheSkipToNextSection (c :: p1) = none) :
    IniCacheLoadLoop (n + 1) C none Ptr str = some C := by
  simp only [IniCacheLoadLoop, h, h3, if_neg hc]

theorem loadLoopStep_orphan_skip (n : Nat) (C : INICACHE) (Ptr : WStr)
    (c : Char) (p1 r2 : WStr) (str : Bool) (hc : c ≠ '[')
    (h : IniCacheSkipWhitespace Ptr = some (c :: p1))
    (h3 : IniCacheSkipToNextSection (c :: p1) = some r2) :
    IniCacheLoadLoop (n + 1) C none Ptr str = IniCacheLoadLoop n C none r2 str := by
  simp only [IniCacheLoadLoop, h, h3, if_neg hc]

theorem loadLoopStep_noValue (n : Nat) (C : INICACHE) (i : Nat) (Ptr : WStr)
    (c : Char) (p1 : WStr) (str : Bool) (hc : c ≠ '[')
    (h : IniCacheSkipWhitespace Ptr = some (c :: p1))
    (hv : IniCacheGetKeyValue (IniCacheGetKeyName (c :: p1)).2 str = .noValue) :
    IniCacheLoadLoop (n + 1) C (some i) Ptr str = some C := by
  simp only [IniCacheLoadLoop, h, hv, if_neg hc]

theorem loadLoopStep_pastEnd (n : Nat) (C : INICACHE) (i : Nat) (Ptr : WStr)
    (c : Char) (p1 : WStr) (str : Bool) (hc : c ≠ '[')
    (h : IniCacheSkipWhitespace Ptr = some (c :: p1))
    (hv : IniCacheGetKeyValue (IniCacheGetKeyName (c :: p1)).2 str = .pastEnd) :
    IniCacheLoadLoop (n + 1) C (some i) Ptr str = none := by
  simp only [IniCacheLoadLoop, h, hv, if_neg hc]

theorem loadLoopStep_value (n : Nat) (C : INICACHE) (i : Nat) (Ptr : WStr)
    (c : Char) (p1 : WStr) (str : Bool) (d r : WStr) (hc : c ≠ '[')
    (h : IniCacheSkipWhitespace Ptr = some (c :: p1))
    (hv : IniCacheGetKeyValue (IniCacheGetKeyName (c :: p1)).2 str = .value d r) :
    IniCacheLoadLoop (n + 1) C (some i) Ptr str =
      IniCacheLoadLoop n
        (match C.get? i with
         | some s =>
           C.set i
             ⟨s.name, (IniCacheAddKeyAorW s.keys .nullAnchor .INSERT_LAST
                         (IniCacheGetKeyName (c :: p1)).1 d).2⟩
         | none => C)
        (some i) r str := by
  simp only [IniCacheLoadLoop, h, hv, if_neg hc]

/-! ## Fuel elimination -/

theorem loadLoop_congr : ∀ (k : Nat) (Ptr : WStr), Ptr.length ≤ k →
    ∀ n m C S str, Ptr.length < n → Ptr.length < m →
    IniCacheLoadLoop n C S Ptr str = IniCacheLoadLoop m C S Ptr str := by
  intro k
  induction k with
  | zero =>
    intro Ptr hl n m C S str hn hm
    have : Ptr = [] := List.eq_nil_of_length_eq_zero (Nat.le_zero.mp hl)
    subst this
    obtain ⟨n', rfl⟩ : ∃ n', n = n' + 1 := ⟨n - 1, by omega⟩
    obtain ⟨m', rfl⟩ : ∃ m', m = m' + 1 := ⟨m - 1, by omega⟩
    rfl
  | succ k ih =>
    intro Ptr hl n m C S str hn hm
    obtain ⟨n', rfl⟩ : ∃ n', n = n' + 1 := ⟨n - 1, by omega⟩
    obtain ⟨m', rfl⟩ : ∃ m', m = m' + 1 := ⟨m - 1, by omega⟩
    cases hw : IniCacheSkipWhitespace Ptr with
    | none => rw [loadLoopStep_end n' C S Ptr str hw, loadLoopStep_end m' C S Ptr str hw]
    | some p0 =>
      cases p0 with
      | nil => simp only [IniCacheLoadLoop, hw]
      | cons c p1 =>
        have hp0 : (c :: p1).length ≤ Ptr.length := skipWhitespace_le _ _ hw
        simp only [List.length_cons] at hp0
        by_cases hc : c = '['
        · subst hc
          cases ha : IniCacheAddSectionAorW C (IniCacheGetSectionName p1).1 with
          | none =>
            cases hs : IniCacheSkipToNextSection (IniCacheGetSectionName p1).2 with
            | none =>
              rw [loadLoopStep_section_fail_end n' C S Ptr p1 str hw ha hs,
                  loadLoopStep_section_fail_end m' C S Ptr p1 str hw ha hs]
            | some r2 =>
              rw [loadLoopStep_section_fail_skip n' C S Ptr p1 r2 str hw ha hs,
                  loadLoopStep_section_fail_skip m' C S Ptr p1 r2 str hw ha hs]
              have b1 := getSectionName_le p1
              have b2 := stns_le _ _ hs
              exact ih r2 (by omega) n' m' C none str (by omega) (by omega)
          | some pr =>
            obtain ⟨i, C2⟩ := pr
            rw [loadLoopStep_section n' C S Ptr p1 str i C2 hw ha,
                loadLoopStep_section m' C S Ptr p1 str i C2 hw ha]
            have b1 := getSectionName_le p1
            exact ih _ (by omega) n' m' C2 (some i) str (by omega) (by omega)
        · cases S with
          | none =>
            cases hs : IniCacheSkipToNextSection (c :: p1) with
            | none =>
              rw [loadLoopStep_orphan_end n' C Ptr c p1 str hc hw hs,
                  loadLoopStep_orphan_end m' C Ptr c p1 str hc hw hs]
            | some r2 =>
              rw [loadLoopStep_orphan_skip n' C Ptr c p1 r2 str hc hw hs,
                  loadLoopStep_orphan_skip m' C Ptr c p1 r2 str hc hw hs]
              have b2 := stns_lt c p1 r2 hc hs
              simp only [List.length_cons] at b2
              exact ih r2 (by omega) n' m' C none str (by omega) (by omega)
          | some i =>
            cases hv : IniCacheGetKeyValue (IniCacheGetKeyName (c :: p1)).2 str with
            | noValue =>
              rw [loadLoopStep_noValue n' C i Ptr c p1 str hc hw hv,
                  loadLoopStep_noValue m' C i Ptr c p1 str hc hw hv]
            | pastEnd =>
              rw [loadLoopStep_pastEnd n' C i Ptr c p1 str hc hw hv,
                  loadLoopStep_pastEnd m' C i Ptr c p1 str hc hw hv]
            | value d r =>
              rw [loadLoopStep_value n' C i Ptr c p1 str d r hc hw hv,
                  loadLoopStep_value m' C i Ptr c p1 str d r hc hw hv]
              have b1 := getKeyName_rest_le (c :: p1)
              have b2 := getKeyValue_value_lt _ _ _ _ hv
              simp only [List.length_cons] at b1
              exact ih r (by omega) n' m' _ (some i) str (by omega) (by omega)

theorem loadLoop_fuel (n : Nat) (C : INICACHE) (S : Option Nat) (Ptr : WStr)
    (str : Bool) (h : Ptr.length < n) :
    IniCacheLoadLoop n C S Ptr str = iniParse C S Ptr str :=
  loadLoop_congr Ptr.length Ptr (le_refl _) n (Ptr.length + 1) C S str h
    (by omega)

/-! ## One-step unfolding of `iniParse` -/

theorem iniParse_end (C : INICACHE) (S : Option Nat) (Ptr : WStr) (str : Bool)
    (h : IniCacheSkipWhitespace Ptr = none) :
    iniParse C S Ptr str = some C :=
  loadLoopStep_end Ptr.length C S Ptr str h

theorem iniParse_section (C : INICACHE) (S : Option Nat) (Ptr p1 : WStr)
    (str : Bool) (i : Nat) (C2 : INICACHE)
    (h : IniCacheSkipWhitespace Ptr = some ('[' :: p1))
    (h2 : IniCacheAddSectionAorW C (IniCacheGetSectionName p1).1 = some (i, C2)) :
    iniParse C S Ptr str = iniParse C2 (some i) (IniCacheGetSectionName p1).2 str := by
  have hle : ('[' :: p1).length ≤ Ptr.length := skipWhitespace_le _ _ h
  have hb := getSectionName_le p1
  simp only [List.length_cons] at hle
  rw [iniParse, loadLoopStep_section Ptr.length C S Ptr p1 str i C2 h h2]
  exact loadLoop_fuel Ptr.length C2 (some i) _ str (by omega)

theorem iniParse_section_fail_end (C : INICACHE) (S : Option Nat)
    (Ptr p1 : WStr) (str : Bool)
    (h : IniCacheSkipWhitespace Ptr = some ('[' :: p1))
    (h2 : IniCacheAddSectionAorW C (IniCacheGetSectionName p1).1 = none)
    (h3 : IniCacheSkipToNextSection (IniCacheGetSectionName p1).2 = none) :
    iniParse C S Ptr str = some C :=
  loadLoopStep_section_fail_end Ptr.length C S Ptr p1 str h h2 h3

theorem iniParse_section_fail_skip (C : INICACHE) (S : Option Nat)
    (Ptr p1 r2 : WStr) (str : Bool)
    (h : IniCacheSkipWhitespace Ptr = some ('[' :: p1))
    (h2 : IniCacheAddSectionAorW C (IniCacheGetSectionName p1).1 = none)
    (h3 : IniCacheSkipToNextSection (IniCacheGetSectionName p1).2 = some r2) :
    iniParse C S Ptr str = iniParse C none r2 str := by
  have hle : ('[' :: p1).length ≤ Ptr.length := skipWhitespace_le _ _ h
  have hb := getSectionName_le p1
  have hb2 := stns_le _ _ h3
  simp only [List.length_cons] at hle
  rw [iniParse, loadLoopStep_section_fail_skip Ptr.length C S Ptr p1 r2 str h h2 h3]
  exact loadLoop_fuel Ptr.length C none r2 str (by omega)

theorem iniParse_orphan_end (C : INICACHE) (Ptr : WStr) (c : Char)
    (p1 : WStr) (str : Bool) (hc : c ≠ '[')
    (h : IniCacheSkipWhitespace Ptr = some (c :: p1))
    (h3 : IniCacheSkipToNextSection (c :: p1) = none) :
    iniParse C none Ptr str = some C :=
  loadLoopStep_orphan_end Ptr.length C Ptr c p1 str hc h h3

theorem iniParse_orphan_skip (C : INICACHE) (Ptr : WStr) (c : Char)
    (p1 r2 : WStr) (str : Bool) (hc : c ≠ '[')
    (h : IniCacheSkipWhitespace Ptr = some (c :: p1))
    (h3 : IniCacheSkipToNextSection (c :: p1) = some r2) :
    iniParse C none Ptr str = iniParse C none r2 str := by
  have hle : (c :: p1).length ≤ Ptr.length := skipWhitespace_le _ _ h
  have hb2 := stns_lt c p1 r2 hc h3
  simp only [List.length_cons] at hle hb2
  rw [iniParse, loadLoopStep_orphan_skip Ptr.length C Ptr c p1 r2 str hc h h3]
  exact loadLoop_fuel Ptr.length C none r2 str (by omega)

theorem iniParse_noValue (C : INICACHE) (i : Nat) (Ptr : WStr) (c : Char)
    (p1 : WStr) (str : Bool) (hc : c ≠ '[')
    (h : IniCacheSkipWhitespace Ptr = some (c :: p1))
    (hv : IniCacheGetKeyValue (IniCacheGetKeyName (c :: p1)).2 str = .noValue) :
    iniParse C (some i) Ptr str = some C :=
  loadLoopStep_noValue Ptr.length C i Ptr c p1 str hc h hv

theorem iniParse_pastEnd (C : INICACHE) (i : Nat) (Ptr : WStr) (c : Char)
    (p1 : WStr) (str : Bool) (hc : c ≠ '[')
    (h : IniCacheSkipWhitespace Ptr = some (c :: p1))
    (hv : IniCacheGetKeyValue (IniCacheGetKeyName (c :: p1)).2 str = .pastEnd) :
    iniParse C (some i) Ptr str = none :=
  loadLoopStep_pastEnd Ptr.length C i Ptr c p1 str hc h hv

theorem iniParse_value (C : INICACHE) (i : Nat) (Ptr : WStr) (c : Char)
    (p1 : WStr) (str : Bool) (d r : WStr) (hc : c ≠ '[')
    (h : IniCacheSkipWhitespace Ptr = some (c :: p1))
    (hv : IniCacheGetKeyValue (IniCacheGetKeyName (c :: p1)).2 str = .value d r) :
    iniParse C (some i) Ptr str =
      iniParse
        (match C.get? i with
         | some s =>
           C.set i
             ⟨s.name, (IniCacheAddKeyAorW s.keys .nullAnchor .INSERT_LAST
                         (IniCacheGetKeyName (c :: p1)).1 d).2⟩
         | none => C)
        (some i) r str := by
  have hle : (c :: p1).length ≤ Ptr.length := skipWhitespace_le _ _ h
  have hb1 := getKeyName_rest_le (c :: p1)
  have hb2 := getKeyValue_value_lt _ _ _ _ hv
  simp only [List.length_cons] at hle hb1
  rw [iniParse, loadLoopStep_value Ptr.length C i Ptr c p1 str d r hc h hv]
  exact loadLoop_fuel Ptr.length _ (some i) r str (by omega)

/-! ## Properties of the find functions -/

theorem findKey_some (keys : List INI_KEYWORD) (Name : WStr) (i : Nat)
    (k : INI_KEYWORD) (h : IniCacheFindKey keys Name = some (i, k)) :
    keys.get? i = some k ∧ wcsicmpEq k.name Name = true ∧
      ∀ j k', j < i → keys.get? j = some k' → wcsicmpEq k'.name Name = false := by
  induction keys generalizing i with
  | nil => simp [IniCacheFindKey] at h
  | cons k0 rest ih =>
    unfold IniCacheFindKey at h
    by_cases h0 : wcsicmpEq k0.name Name
    · rw [if_pos h0] at h
      simp only [Option.some.injEq, Prod.mk.injEq] at h
      rcases h with ⟨rfl, rfl⟩
      refine ⟨rfl, h0, ?_⟩
      intro j k' hj
      omega
    · rw [if_neg h0] at h
      cases hr : IniCacheFindKey rest Name with
      | none => rw [hr] at h; exact Option.noConfusion h
      | some p =>
        obtain ⟨i', k''⟩ := p
        rw [hr] at h
        simp only [Option.map_some', Option.some.injEq, Prod.mk.injEq] at h
        rcases h with ⟨rfl, rfl⟩
        rcases ih i' hr with ⟨hg, hm, hfirst⟩
        refine ⟨hg, hm, ?_⟩
        intro j k' hj hget
        cases j with
        | zero =>
          simp only [List.get?] at hget
          injection hget with hk'
          rw [← hk']
          simpa using h0
        | succ j' =>
          simp only [List.get?] at hget
          exact hfirst j' k' (by omega) hget

theorem findKey_none (keys : List INI_KEYWORD) (Name : WStr)
    (h : IniCacheFindKey keys Name = none) :
    ∀ k ∈ keys, wcsicmpEq k.name Name = false := by
  induction keys with
  | nil => simp
  | cons k0 rest ih =>
    unfold IniCacheFindKey at h
    by_cases h0 : wcsicmpEq k0.name Name
    · rw [if_pos h0] at h
      exact Option.noConfusion h
    · rw [if_neg h0] at h
      intro k hk
      rcases List.mem_cons.mp hk with rfl | hk
      · simpa using h0
      · cases hr : IniCacheFindKey rest Name with
        | none => exact ih hr k hk
        | some p => rw [hr] at h; simp at h

theorem findKey_none_of_all (keys : List INI_KEYWORD) (Name : WStr)
    (h : ∀ k ∈ keys, wcsicmpEq k.name Name = false) :
    IniCacheFindKey keys Name = none := by
  induction keys with
  | nil => rfl
  | cons k0 rest ih =>
    unfold IniCacheFindKey
    rw [if_neg (by simp [h k0 (by simp)]), ih (fun k hk => h k (by simp [hk]))]
    rfl

theorem findSection_some (Cache : INICACHE) (Name : WStr) (i : Nat)
    (h : IniCacheFindSection Cache Name = some i) :
    ∃ s, Cache.get? i = some s ∧ wcsicmpEq s.name Name = true ∧
      ∀ j s', j < i → Cache.get? j = some s' → wcsicmpEq s'.name Name = false := by
  induction Cache generalizing i with
  | nil => simp [IniCacheFindSection] at h
  | cons s0 rest ih =>
    unfold IniCacheFindSection at h
    by_cases h0 : wcsicmpEq s0.name Name
    · rw [if_pos h0] at h
      simp only [Option.some.injEq] at h
      subst h
      exact ⟨s0, rfl, h0, by intro j s' hj; omega⟩
    · rw [if_neg h0] at h
      cases hr : IniCacheFindSection rest Name with
      | none => rw [hr] at h; exact Option.noConfusion h
      | some i' =>
        rw [hr] at h
        simp only [Option.map_some', Option.some.injEq] at h
        subst h
        rcases ih i' hr with ⟨s, hg, hm, hfirst⟩
        refine ⟨s, hg, hm, ?_⟩
        intro j s' hj hget
        cases j with
        | zero =>
          simp only [List.get?] at hget
          injection hget with hs'
          rw [← hs']
          simpa using h0
        | succ j' =>
          simp only [List.get?] at hget
          exact hfirst j' s' (by omega) hget

theorem findSection_none (Cache : INICACHE) (Name : WStr)
    (h : IniCacheFindSection Cache Name = none) :
    ∀ s ∈ Cache, wcsicmpEq s.name Name = false := by
  induction Cache with
  | nil => simp
  | cons s0 rest ih =>
    unfold IniCacheFindSection at h
    by_cases h0 : wcsicmpEq s0.name Name
    · rw [if_pos h0] at h
      exact Option.noConfusion h
    · rw [if_neg h0] at h
      intro s hs
      rcases List.mem_cons.mp hs with rfl | hs
      · simpa using h0
      · cases hr : IniCacheFindSection rest Name with
        | none => exact ih hr s hs
        | some i => rw [hr] at h; simp at h

theorem findSection_none_of_all (Cache : INICACHE) (Name : WStr)
    (h : ∀ s ∈ Cache, wcsicmpEq s.name Name = false) :
    IniCacheFindSection Cache Name = none := by
  induction Cache with
  | nil => rfl
  | cons s0 rest ih =>
    unfold IniCacheFindSection
    rw [if_neg (by simp [h s0 (by simp)]), ih (fun s hs => h s (by simp [hs]))]
    rfl

theorem wcsicmpEq_symm (a b : WStr) : wcsicmpEq a b = wcsicmpEq b a := by
  unfold wcsicmpEq
  by_cases h : a.map Char.toLower = b.map Char.toLower
  · simp [h]
  · have h2 : ¬b.map Char.toLower = a.map Char.toLower := fun hh => h hh.symm
    simp [h, h2]

theorem wcsicmpEq_congr_right (a n1 n2 : WStr) (h : wcsicmpEq n1 n2 = true) :
    wcsicmpEq a n1 = wcsicmpEq a n2 := by
  unfold wcsicmpEq at *
  simp only [beq_iff_eq] at h
  rw [h]

theorem findSection_congr (Cache : INICACHE) (n1 n2 : WStr)
    (h : wcsicmpEq n1 n2 = true) :
    IniCacheFindSection Cache n1 = IniCacheFindSection Cache n2 := by
  induction Cache with
  | nil => rfl
  | cons s0 rest ih =>
    unfold IniCacheFindSection
    rw [wcsicmpEq_congr_right s0.name n1 n2 h, ih]

theorem findSection_cons (s0 : INI_SECTION) (rest : INICACHE) (Name : WStr) :
    IniCacheFindSection (s0 :: rest) Name =
      if wcsicmpEq s0.name Name then some 0
      else (IniCacheFindSection rest Name).map (· + 1) := rfl

theorem findSection_append_of_none (c d : INICACHE) (Name : WStr)
    (h : IniCacheFindSection c Name = none) :
    IniCacheFindSection (c ++ d) Name =
      (IniCacheFindSection d Name).map (· + c.length) := by
  induction c with
  | nil =>
    simp only [List.nil_append, List.length_nil]
    cases IniCacheFindSection d Name <;> simp
  | cons s0 rest ih =>
    rw [findSection_cons] at h
    by_cases h0 : wcsicmpEq s0.name Name
    · rw [if_pos h0] at h; exact Option.noConfusion h
    · rw [if_neg h0] at h
      have hr : IniCacheFindSection rest Name = none := by
        cases hr2 : IniCacheFindSection rest Name with
        | none => rfl
        | some i => rw [hr2] at h; exact Option.noConfusion h
      rw [List.cons_append, findSection_cons, if_neg h0, ih hr]
      cases hd : IniCacheFindSection d Name with
      | none => rfl
      | some i =>
        simp only [Option.map_some', Option.some.injEq, List.length_cons]
        omega

/-! ## Computation rules for `IniCacheAddKeyAorW` -/

theorem addKeyAorW_update (keys : List INI_KEYWORD) (AnchorKey : ANCHOR)
    (InsertionType : INSERTION_TYPE) (Name Data : WStr) (i : Nat)
    (k : INI_KEYWORD) (hN : Name ≠ []) (hD : Data ≠ [])
    (hf : IniCacheFindKey keys Name = some (i, k)) :
    IniCacheAddKeyAorW keys AnchorKey InsertionType Name Data =
      (.atIndex i, keys.set i ⟨k.name, Data⟩) := by
  unfold IniCacheAddKeyAorW IniCacheAddKeyAorWEx
  rw [if_neg (by simp [hN, hD]), hf]
  simp only []
  rw [if_neg (by simp)]
  rw [if_neg (by simp)]

theorem addKeyAorW_last (keys : List INI_KEYWORD) (Name Data : WStr)
    (hN : Name ≠ []) (hD : Data ≠ [])
    (hf : IniCacheFindKey keys Name = none) :
    IniCacheAddKeyAorW keys .nullAnchor .INSERT_LAST Name Data =
      (.atIndex keys.length, keys ++ [⟨Name, Data⟩]) := by
  unfold IniCacheAddKeyAorW IniCacheAddKeyAorWEx
  rw [if_neg (by simp [hN, hD]), hf]
  simp only []
  rw [if_neg (by simp), if_neg (by simp), if_neg (by simp)]
  by_cases hk : keys = []
  · subst hk
    rw [if_pos rfl]
    rfl
  · rw [if_neg hk]
    simp

theorem addKeyAorW_empty_name (keys : List INI_KEYWORD) (AnchorKey : ANCHOR)
    (InsertionType : INSERTION_TYPE) (Data : WStr) :
    IniCacheAddKeyAorW keys AnchorKey InsertionType [] Data =
      (.nullRet, keys) := by
  unfold IniCacheAddKeyAorW IniCacheAddKeyAorWEx
  rw [if_pos (by left; rfl)]

theorem addKeyAorW_empty_data (keys : List INI_KEYWORD) (AnchorKey : ANCHOR)
    (InsertionType : INSERTION_TYPE) (Name : WStr) :
    IniCacheAddKeyAorW keys AnchorKey InsertionType Name [] =
      (.nullRet, keys) := by
  unfold IniCacheAddKeyAorW IniCacheAddKeyAorWEx
  rw [if_pos (by right; rfl)]

/-! ## Claim theorems -/

/-- **C4.**  For every section and every key name that already exists in that
section under case-insensitive comparison, adding that name with a new
non-empty value via `IniCacheAddKeyAorW` (hence also via
`IniInsertKey`/`IniAddKey`) replaces the existing key's value in place and
returns the existing key: the result is the key list with only entry `i`'s
data replaced (its name, hence its identity, kept), so the key count, that
key's position, and all other keys are unchanged, and the anchor and
insertion-mode arguments have no effect (the equation holds for every
`AnchorKey` and `InsertionType`). -/
theorem claim_C4 (keys : List INI_KEYWORD) (AnchorKey : ANCHOR)
    (InsertionType : INSERTION_TYPE) (Name Data : WStr) (i : Nat)
    (k : INI_KEYWORD) (hN : Name ≠ []) (hD : Data ≠ [])
    (hf : IniCacheFindKey keys Name = some (i, k)) :
    IniCacheAddKeyAorW keys AnchorKey InsertionType Name Data =
        (.atIndex i, keys.set i ⟨k.name, Data⟩) ∧
      IniInsertKey keys AnchorKey InsertionType (some Name) (some Data) =
        (.atIndex i, keys.set i ⟨k.name, Data⟩) ∧
      keys.get? i = some k ∧
      (keys.set i ⟨k.name, Data⟩).get? i = some ⟨k.name, Data⟩ ∧
      (keys.set i ⟨k.name, Data⟩).length = keys.length ∧
      (∀ j, j ≠ i → (keys.set i ⟨k.name, Data⟩).get? j = keys.get? j) := by
  have hmain := addKeyAorW_update keys AnchorKey InsertionType Name Data i k hN hD hf
  have hg := (findKey_some keys Name i k hf).1
  have hi : i < keys.length := (List.get?_eq_some.mp hg).1
  refine ⟨hmain, ?_, hg, ?_, List.length_set keys i _, ?_⟩
  · have hstep : IniInsertKey keys AnchorKey InsertionType (some Name) (some Data) =
        if Name = [] ∨ Data = [] then (.nullRet, keys)
        else IniCacheAddKeyAorW keys AnchorKey InsertionType Name Data := rfl
    rw [hstep, if_neg (by simp [hN, hD])]
    exact hmain
  · exact List.get?_set_eq_of_lt _ hi
  · intro j hj
    exact List.get?_set_ne _ keys (fun hh => hj hh.symm)

/-- Witness for C4: section `[x=1]`, adding `X=2` (case-insensitive match,
with a foreign anchor and `INSERT_FIRST`, both ignored) updates `x` in
place. -/
theorem claim_C4_witness :
    IniCacheAddKeyAorW [⟨"x".toList, "1".toList⟩] .foreign .INSERT_FIRST
        "X".toList "2".toList =
      (.atIndex 0, [⟨"x".toList, "2".toList⟩]) :=
  (claim_C4 [⟨"x".toList, "1".toList⟩] .foreign .INSERT_FIRST
    "X".toList "2".toList 0 ⟨"x".toList, "1".toList⟩
    (by decide) (by decide) (by decide)).1

/-- **C5.**  Section lookup and creation are case-insensitive and
duplicate-free: for every cache and non-empty name, `IniCacheAddSectionAorW`
returns the already-existing *first* section whose name matches
case-insensitively, leaving the cache unchanged (no second section with that
name is created); otherwise it appends a new section at the end of the
cache's sequence.  In both cases a subsequent `IniGetSection` lookup with any
case-variant of the name (e.g. adding `Foo` and looking up `FOO`) returns
that same section. -/
theorem claim_C5 (Cache : INICACHE) (Name : WStr) (hN : Name ≠ []) :
    ∃ i C2, IniCacheAddSectionAorW Cache Name = some (i, C2) ∧
      ((∃ s, Cache.get? i = some s ∧ wcsicmpEq s.name Name = true ∧
          (∀ j s', j < i → Cache.get? j = some s' →
            wcsicmpEq s'.name Name = false) ∧
          C2 = Cache) ∨
        ((∀ s ∈ Cache, wcsicmpEq s.name Name = false) ∧
          i = Cache.length ∧ C2 = Cache ++ [⟨Name, []⟩])) ∧
      ∀ Name2, wcsicmpEq Name2 Name = true →
        IniGetSection (some C2) (some Name2) = some i := by
  unfold IniCacheAddSectionAorW
  rw [if_neg hN]
  cases hf : IniCacheFindSection Cache Name with
  | some i =>
    refine ⟨i, Cache, rfl, ?_, ?_⟩
    · rcases findSection_some Cache Name i hf with ⟨s, hg, hm, hfirst⟩
      exact Or.inl ⟨s, hg, hm, hfirst, rfl⟩
    · intro Name2 h2
      show IniCacheFindSection Cache Name2 = some i
      rw [findSection_congr Cache Name2 Name h2]
      exact hf
  | none =>
    refine ⟨Cache.length, Cache ++ [⟨Name, []⟩], rfl,
      Or.inr ⟨findSection_none Cache Name hf, rfl, rfl⟩, ?_⟩
    intro Name2 h2
    show IniCacheFindSection (Cache ++ [⟨Name, []⟩]) Name2 = some Cache.length
    have hn2 : IniCacheFindSection Cache Name2 = none := by
      apply findSection_none_of_all
      intro s hs
      rw [wcsicmpEq_congr_right s.name Name2 Name h2]
      exact findSection_none Cache Name hf s hs
    rw [findSection_append_of_none Cache [⟨Name, []⟩] Name2 hn2]
    have : wcsicmpEq Name Name2 = true := by
      rw [wcsicmpEq_symm]; exact h2
    rw [findSection_cons]
    simp only [this, if_true, Option.map_some']
    simp

/-- Witness for C5: adding `Foo` to an empty cache appends it, and looking
up `FOO` afterwards finds it at index 0. -/
theorem claim_C5_witness :
    ∃ i C2, IniCacheAddSectionAorW [] "Foo".toList = some (i, C2) ∧
      ((∃ s, ([] : INICACHE).get? i = some s ∧
          wcsicmpEq s.name "Foo".toList = true ∧
          (∀ j s', j < i → ([] : INICACHE).get? j = some s' →
            wcsicmpEq s'.name "Foo".toList = false) ∧
          C2 = []) ∨
        ((∀ s ∈ ([] : INICACHE), wcsicmpEq s.name "Foo".toList = false) ∧
          i = ([] : INICACHE).length ∧
          C2 = [] ++ [⟨"Foo".toList, []⟩])) ∧
      ∀ Name2, wcsicmpEq Name2 "Foo".toList = true →
        IniGetSection (some C2) (some Name2) = some i :=
  claim_C5 [] "Foo".toList (by decide)

/-- **C10.**  `IniGetKey` returns `STATUS_SUCCESS` and sets the output
pointer to the key's data exactly when the section, name, and out-pointer
are valid and a case-insensitively matching key exists; in every other case
(NULL section, NULL key name, NULL output pointer, or no matching key) it
returns the single status `STATUS_INVALID_PARAMETER` with the output left
NULL, so the status cannot distinguish "not found" from "invalid
argument". -/
theorem claim_C10 (Sec : Option (List INI_KEYWORD)) (KeyName : Option WStr)
    (valid : Bool) :
    ((IniGetKey Sec KeyName valid).1 = .success ↔
      ∃ keys n i k, Sec = some keys ∧ KeyName = some n ∧ valid = true ∧
        IniCacheFindKey keys n = some (i, k)) ∧
    ((IniGetKey Sec KeyName valid).1 ≠ .success →
      IniGetKey Sec KeyName valid = (.invalidParameter, none)) ∧
    (∀ keys n i k, Sec = some keys → KeyName = some n → valid = true →
      IniCacheFindKey keys n = some (i, k) →
      IniGetKey Sec KeyName valid = (.success, some k.data)) := by
  match Sec, KeyName, valid with
  | some keys, some n, true =>
    cases hf : IniCacheFindKey keys n with
    | none =>
      have hEq : IniGetKey (some keys) (some n) true = (.invalidParameter, none) := by
        simp [IniGetKey, hf]
      rw [hEq]
      refine ⟨⟨fun h => absurd h (by decide),
        fun ⟨keys2, n2, i, k, hk, hn, _, hfk⟩ => ?_⟩, fun _ => rfl, ?_⟩
      · injection hk with hk
        injection hn with hn
        subst hk; subst hn
        rw [hf] at hfk
        exact Option.noConfusion hfk
      · intro keys2 n2 i k hk hn hv hfk
        injection hk with hk
        injection hn with hn
        subst hk; subst hn
        rw [hf] at hfk
        exact Option.noConfusion hfk
    | some p =>
      obtain ⟨i, k⟩ := p
      have hEq : IniGetKey (some keys) (some n) true = (.success, some k.data) := by
        simp [IniGetKey, hf]
      rw [hEq]
      refine ⟨⟨fun _ => ⟨keys, n, i, k, rfl, rfl, rfl, hf⟩, fun _ => rfl⟩,
        fun h => absurd rfl h, ?_⟩
      intro keys2 n2 i2 k2 hk hn hv hfk
      injection hk with hk
      injection hn with hn
      subst hk; subst hn
      rw [hf] at hfk
      injection hfk with hfk
      injection hfk with h1 h2
      subst h2
      rfl
  | none, kn, v =>
    have hEq : IniGetKey none kn v = (.invalidParameter, none) := by
      cases kn <;> cases v <;> rfl
    rw [hEq]
    refine ⟨⟨fun h => absurd h (by decide),
      fun ⟨keys2, n2, i, k, hk, _, _, _⟩ => Option.noConfusion hk⟩,
      fun _ => rfl, ?_⟩
    intro keys2 n2 i k hk
    exact absurd hk (by simp)
  | some keys, none, v =>
    have hEq : IniGetKey (some keys) none v = (.invalidParameter, none) := by
      cases v <;> rfl
    rw [hEq]
    refine ⟨⟨fun h => absurd h (by decide),
      fun ⟨keys2, n2, i, k, _, hn, _, _⟩ => Option.noConfusion hn⟩,
      fun _ => rfl, ?_⟩
    intro keys2 n2 i k hk hn
    exact absurd hn (by simp)
  | some keys, some n, false =>
    have hEq : IniGetKey (some keys) (some n) false = (.invalidParameter, none) := rfl
    rw [hEq]
    refine ⟨⟨fun h => absurd h (by decide),
      fun ⟨keys2, n2, i, k, _, _, hv, _⟩ => Bool.noConfusion hv⟩,
      fun _ => rfl, ?_⟩
    intro keys2 n2 i k hk hn hv
    exact absurd hv (by simp)

/-- Witness for C10: in a section holding `x=1`, looking up `X` succeeds
with data `1`; the success status characterization holds at this input. -/
theorem claim_C10_witness :
    IniGetKey (some [⟨"x".toList, "1".toList⟩]) (some "X".toList) true =
      (.success, some "1".toList) :=
  (claim_C10 (some [⟨"x".toList, "1".toList⟩]) (some "X".toList) true).2.2
    [⟨"x".toList, "1".toList⟩] "X".toList 0 ⟨"x".toList, "1".toList⟩
    rfl rfl rfl (by decide)

/-- **C3 (amended).**  For every section and non-empty fresh name/value,
`IniCacheAddKeyAorW` with `INSERT_BEFORE` (resp. `INSERT_AFTER`) and a NULL
anchor behaves exactly as `INSERT_FIRST` (resp. `INSERT_LAST`); but — contrary
to the original claim — a non-null anchor that is *not* a key of the section
does not fall back to first/last: the new key is spliced next to the anchor in
the anchor's own list, the returned key is outside the section, and the
section's own key sequence is left unchanged (when the section is
non-empty). -/
theorem claim_C3 (keys : List INI_KEYWORD) (Name Data : WStr) :
    (IniCacheAddKeyAorW keys .nullAnchor .INSERT_BEFORE Name Data =
      IniCacheAddKeyAorW keys .nullAnchor .INSERT_FIRST Name Data) ∧
    (IniCacheAddKeyAorW keys .nullAnchor .INSERT_AFTER Name Data =
      IniCacheAddKeyAorW keys .nullAnchor .INSERT_LAST Name Data) ∧
    (Name ≠ [] → Data ≠ [] → IniCacheFindKey keys Name = none → keys ≠ [] →
      IniCacheAddKeyAorW keys .foreign .INSERT_BEFORE Name Data =
          (.outside, keys) ∧
        IniCacheAddKeyAorW keys .foreign .INSERT_AFTER Name Data =
          (.outside, keys)) := by
  refine ⟨?_, ?_, ?_⟩
  · unfold IniCacheAddKeyAorW IniCacheAddKeyAorWEx
    by_cases h1 : Name = [] ∨ Data = []
    · rw [if_pos h1, if_pos h1]
    · rw [if_neg h1, if_neg h1]
      cases hf : IniCacheFindKey keys Name with
      | some p => rfl
      | none =>
        by_cases hk : keys = []
        · simp [hk]
        · simp [hk]
  · unfold IniCacheAddKeyAorW IniCacheAddKeyAorWEx
    by_cases h1 : Name = [] ∨ Data = []
    · rw [if_pos h1, if_pos h1]
    · rw [if_neg h1, if_neg h1]
      cases hf : IniCacheFindKey keys Name with
      | some p => rfl
      | none =>
        by_cases hk : keys = []
        · simp [hk]
        · simp [hk]
  · intro hN hD hf hk
    constructor
    · unfold IniCacheAddKeyAorW IniCacheAddKeyAorWEx
      rw [if_neg (by simp [hN, hD]), hf]
      simp [hk]
    · unfold IniCacheAddKeyAorW IniCacheAddKeyAorWEx
      rw [if_neg (by simp [hN, hD]), hf]
      simp [hk]

/-- Counterexample for C3 as stated: in a section `[a=1]`, inserting `b=2`
with `INSERT_BEFORE` and a foreign anchor (a key of a different section,
interior to its own list) leaves this section's key sequence unchanged and
returns a key outside it — it does *not* perform the `INSERT_FIRST` fallback
the claim asserts, which would have produced `[b=2, a=1]`. -/
theorem claim_C3_counterexample :
    IniCacheAddKeyAorW [⟨"a".toList, "1".toList⟩] .foreign .INSERT_BEFORE
        "b".toList "2".toList =
      (.outside, [⟨"a".toList, "1".toList⟩]) ∧
    IniCacheAddKeyAorW [⟨"a".toList, "1".toList⟩] .nullAnchor .INSERT_FIRST
        "b".toList "2".toList =
      (.atIndex 0, [⟨"b".toList, "2".toList⟩, ⟨"a".toList, "1".toList⟩]) ∧
    ((KEYRET.outside, [(⟨"a".toList, "1".toList⟩ : INI_KEYWORD)]) ≠
      (KEYRET.atIndex 0,
        [(⟨"b".toList, "2".toList⟩ : INI_KEYWORD), ⟨"a".toList, "1".toList⟩])) := by
  refine ⟨by decide, by decide, by decide⟩

/-- Witness for C3 (amended), at section `[a=1]`, inserting `b=2` relative
to a foreign anchor. -/
theorem claim_C3_witness :
    IniCacheAddKeyAorW [⟨"a".toList, "1".toList⟩] .foreign .INSERT_BEFORE
        "b".toList "2".toList =
      (.outside, [⟨"a".toList, "1".toList⟩]) ∧
    IniCacheAddKeyAorW [⟨"a".toList, "1".toList⟩] .foreign .INSERT_AFTER
        "b".toList "2".toList =
      (.outside, [⟨"a".toList, "1".toList⟩]) :=
  (claim_C3 [⟨"a".toList, "1".toList⟩] "b".toList "2".toList).2.2
    (by decide) (by decide) (by decide) (by decide)

/-- **C7.**  Failed mutations are no-ops: whenever
`IniCacheAddKeyAorW`/`IniCacheAddKeyAorWEx` returns NULL — invalid arguments
or any allocation failure, including the failure of the new data buffer
while updating an already-existing key — the section's key sequence is
returned exactly as it was; and `IniInsertKey` (hence `IniAddKey`) with a
NULL or empty name or value fails without touching the section. -/
theorem claim_C7 :
    (∀ alloc (keys : List INI_KEYWORD) AnchorKey InsertionType Name Data ret l,
      IniCacheAddKeyAorWEx alloc keys AnchorKey InsertionType Name Data =
          (ret, l) →
        ret = KEYRET.nullRet → l = keys) ∧
    (∀ (keys : List INI_KEYWORD) AnchorKey InsertionType Data,
      IniInsertKey keys AnchorKey InsertionType none Data = (.nullRet, keys)) ∧
    (∀ (keys : List INI_KEYWORD) AnchorKey InsertionType Name,
      IniInsertKey keys AnchorKey InsertionType Name none = (.nullRet, keys)) ∧
    (∀ (keys : List INI_KEYWORD) AnchorKey InsertionType Data,
      IniInsertKey keys AnchorKey InsertionType (some []) (some Data) =
        (.nullRet, keys)) ∧
    (∀ (keys : List INI_KEYWORD) AnchorKey InsertionType Name,
      IniInsertKey keys AnchorKey InsertionType (some Name) (some []) =
        (.nullRet, keys)) ∧
    (∀ (keys : List INI_KEYWORD) Name Data,
      IniAddKey keys Name Data =
        IniInsertKey keys .nullAnchor .INSERT_LAST Name Data) := by
  refine ⟨?_, ?_, ?_, ?_, ?_, fun keys Name Data => rfl⟩
  · intro alloc keys AnchorKey InsertionType Name Data ret l hEq hret
    unfold IniCacheAddKeyAorWEx at hEq
    repeat' split at hEq
    all_goals injection hEq with e1 e2
    all_goals subst e1
    all_goals subst e2
    all_goals first
      | rfl
      | exact KEYRET.noConfusion hret
  · intro keys AnchorKey InsertionType Data
    cases Data <;> rfl
  · intro keys AnchorKey InsertionType Name
    cases Name <;> rfl
  · intro keys AnchorKey InsertionType Data
    show (if ([] : WStr) = [] ∨ Data = [] then ((KEYRET.nullRet, keys) : KEYRET × List INI_KEYWORD)
          else IniCacheAddKeyAorW keys AnchorKey InsertionType [] Data) = _
    rw [if_pos (Or.inl rfl)]
  · intro keys AnchorKey InsertionType Name
    show (if Name = [] ∨ ([] : WStr) = [] then ((KEYRET.nullRet, keys) : KEYRET × List INI_KEYWORD)
          else IniCacheAddKeyAorW keys AnchorKey InsertionType Name []) = _
    rw [if_pos (Or.inr rfl)]

/-- Witness for C7: updating `x` in `[x=1]` with the data-buffer allocation
failing (`alloc 1 = false`) returns NULL and leaves the key list unchanged. -/
theorem claim_C7_witness :
    IniCacheAddKeyAorWEx (fun i => i == 0) [⟨"x".toList, "1".toList⟩]
        .nullAnchor .INSERT_LAST "x".toList "2".toList =
      (.nullRet, [⟨"x".toList, "1".toList⟩]) ∧
    ([⟨"x".toList, "1".toList⟩] : List INI_KEYWORD) =
      [⟨"x".toList, "1".toList⟩] :=
  ⟨by decide,
    claim_C7.1 (fun i => i == 0) [⟨"x".toList, "1".toList⟩] .nullAnchor
      .INSERT_LAST "x".toList "2".toList .nullRet [⟨"x".toList, "1".toList⟩]
      (by decide) rfl⟩

theorem keysText_eq (ks : List INI_KEYWORD) :
    keysText ks = (ks.map keyLineText).flatten := by
  induction ks with
  | nil => rfl
  | cons k rest ih => simp [keysText, ih]

/-- **C6.**  The buffer-fill stage of `IniCacheSaveByHandle` deterministically
renders, for each section in insertion order, `[Name]` followed by CR LF,
then each of the section's keys in order as `Name=Value` followed by CR LF,
with exactly one blank line (CR LF) between consecutive sections and none
after the last section, and applies no quoting or escaping to any value:
it equals the specification's rendering `IniCacheSaveTextSpec`, in which key
lines are emitted verbatim and sections are intercalated with a single
CR LF. -/
theorem claim_C6 (Cache : INICACHE) :
    IniCacheSaveText Cache = IniCacheSaveTextSpec Cache := by
  induction Cache with
  | nil => rfl
  | cons s rest ih =>
    cases rest with
    | nil =>
      show ('[' :: (s.name ++ ']' :: ['\r', '\n'])) ++ keysText s.keys ++ [] =
        IniCacheSaveTextSpec [s]
      rw [keysText_eq]
      simp only [IniCacheSaveTextSpec, List.intercalate, List.map_cons,
        List.map_nil, List.intersperse, List.flatten, List.append_nil]
      rfl
    | cons s2 rest2 =>
      show ('[' :: (s.name ++ ']' :: ['\r', '\n'])) ++ keysText s.keys ++
          ('\r' :: '\n' :: IniCacheSaveText (s2 :: rest2)) =
        IniCacheSaveTextSpec (s :: s2 :: rest2)
      rw [keysText_eq, ih]
      simp only [IniCacheSaveTextSpec, List.intercalate, List.map_cons,
        List.intersperse, List.flatten, List.append_assoc, List.cons_append,
        List.nil_append]
      rfl

/-- **C2 (amended).**  When parsing a key line inside a section fails because
the line lacks `=` (`IniCacheGetKeyValue` returns NULL, `noValue`), the parse
loop of `IniCacheLoadFromMemory` does *not* continue with the rest of the
buffer: `IniCacheGetKeyValue`'s NULL return becomes the loop cursor, the
`while (Ptr != NULL ...)` condition fails, and the load terminates
immediately, successfully returning only the entries accumulated so far.
(The original claim — that only the offending entry is omitted and the
remaining lines and sections are still parsed — is refuted by
`claim_C2_counterexample`.) -/
theorem claim_C2 (C : INICACHE) (i : Nat) (Ptr : WStr) (c : Char) (p1 : WStr)
    (str : Bool) (hc : c ≠ '[')
    (h : IniCacheSkipWhitespace Ptr = some (c :: p1))
    (hv : IniCacheGetKeyValue (IniCacheGetKeyName (c :: p1)).2 str = .noValue) :
    iniParse C (some i) Ptr str = some C :=
  iniParse_noValue C i Ptr c p1 str hc h hv

/-- Witness for C2 (amended): inside section `A`, the tail buffer
`bad\r\nx=1\r\n` starts with a key line lacking `=`; the loop returns the
accumulated cache, dropping the following `x=1` line as well. -/
theorem claim_C2_witness :
    iniParse [⟨"A".toList, []⟩] (some 0) ("bad\r\nx=1\r\n").toList false =
      some [⟨"A".toList, []⟩] :=
  claim_C2 [⟨"A".toList, []⟩] 0 ("bad\r\nx=1\r\n").toList 'b'
    ("ad\r\nx=1\r\n").toList false (by decide) (by decide) (by decide)

/-- Counterexample for C2 as stated: in `[A]\r\nbad\r\n[B]\r\ny=2\r\n` the
key line `bad` lacks `=`.  The claim says only that entry is omitted and the
parser continues with the remaining lines and sections, so section `B` with
key `y=2` should appear; the code instead abandons the rest of the buffer
and yields only section `A` with no keys. -/
theorem claim_C2_counterexample :
    IniCacheLoadFromMemory ("[A]\r\nbad\r\n[B]\r\ny=2\r\n").toList false =
      some (.success, [⟨"A".toList, []⟩]) ∧
    (some ((NTSTATUS.success : NTSTATUS), [(⟨"A".toList, []⟩ : INI_SECTION)]) ≠
      some (.success,
        [⟨"A".toList, []⟩, ⟨"B".toList, [⟨"y".toList, "2".toList⟩]⟩])) := by
  refine ⟨by decide, by decide⟩

/-- **C9 (amended).**  The quoted-value scan of `IniCacheGetKeyValue` has no
terminator check, so the out-of-range branch is *reachable*: it is reached
exactly when quoted mode is enabled, the cursor (after whitespace) starts
with `=`, the first non-whitespace character after `=` is `"`, and no closing
`"` occurs anywhere in the remaining input.  Whenever a closing quote is
present the scan terminates at or before the terminator, and in non-quoted
mode the branch is unreachable. -/
theorem claim_C9 (Ptr : WStr) (String : Bool) :
    (IniCacheGetKeyValue Ptr String = .pastEnd ↔
      (String = true ∧ ∃ p2, Ptr.dropWhile isspace = '=' :: p2 ∧
        (p2.dropWhile isspace).head? = some '"' ∧
        (p2.dropWhile isspace).tail.contains '"' = false)) ∧
    (String = false → IniCacheGetKeyValue Ptr String ≠ .pastEnd) := by
  have main : IniCacheGetKeyValue Ptr String = .pastEnd ↔
      (String = true ∧ ∃ p2, Ptr.dropWhile isspace = '=' :: p2 ∧
        (p2.dropWhile isspace).head? = some '"' ∧
        (p2.dropWhile isspace).tail.contains '"' = false) := by
    unfold IniCacheGetKeyValue
    split
    · rename_i heq
      constructor
      · intro h
        exact GetValueResult.noConfusion h
      · rintro ⟨-, p2x, heq2, -, -⟩
        rw [heq] at heq2
        exact List.noConfusion heq2
    · rename_i c p2 heq
      by_cases hc : c = '='
      · rw [if_pos hc]
        subst hc
        by_cases hcond : String = true ∧ (p2.dropWhile isspace).head? = some '"'
        · rw [if_pos hcond]
          by_cases hcont : (p2.dropWhile isspace).tail.contains '"' = true
          · rw [if_pos hcont]
            constructor
            · intro h
              exact GetValueResult.noConfusion h
            · rintro ⟨-, p2x, heq2, -, hcont2⟩
              rw [heq] at heq2
              injection heq2 with he1 he2
              subst he2
              rw [hcont] at hcont2
              exact Bool.noConfusion hcont2
          · rw [if_neg hcont]
            have hcf : (p2.dropWhile isspace).tail.contains '"' = false := by
              cases hx : (p2.dropWhile isspace).tail.contains '"' with
              | true => exact absurd hx hcont
              | false => rfl
            constructor
            · intro _
              exact ⟨hcond.1, p2, heq, hcond.2, hcf⟩
            · intro _
              rfl
        · rw [if_neg hcond]
          constructor
          · intro h
            exact GetValueResult.noConfusion h
          · rintro ⟨hs, p2x, heq2, hq, -⟩
            rw [heq] at heq2
            injection heq2 with he1 he2
            subst he2
            exact ((hcond ⟨hs, hq⟩).elim :)
      · rw [if_neg hc]
        constructor
        · intro h
          exact GetValueResult.noConfusion h
        · rintro ⟨-, p2x, heq2, -, -⟩
          rw [heq] at heq2
          injection heq2 with he1 he2
          exact ((hc he1).elim :)
  refine ⟨main, ?_⟩
  intro hs h
  rcases main.mp h with ⟨hs2, -⟩
  rw [hs] at hs2
  exact Bool.noConfusion hs2

/-- Counterexample for C9 as stated: on the buffer `="abc` (no closing
quote before the terminator) in quoted mode, `IniCacheGetKeyValue` reaches
the past-the-end branch — the scan does not terminate at or before the
terminator, refuting the claimed unreachability. -/
theorem claim_C9_counterexample :
    IniCacheGetKeyValue ("=\"abc").toList true = GetValueResult.pastEnd := by
  decide

/-- Witness for C9 (amended): the characterization applied at `="abc` in
quoted mode (past-the-end branch reached) and in non-quoted mode (branch
unreachable). -/
theorem claim_C9_witness :
    IniCacheGetKeyValue ("=\"abc").toList true = GetValueResult.pastEnd ∧
    IniCacheGetKeyValue ("=\"abc").toList false ≠ GetValueResult.pastEnd :=
  ⟨(claim_C9 ("=\"abc").toList true).1.mpr
    ⟨rfl, "\"abc".toList, by decide, by decide, by decide⟩,
   (claim_C9 ("=\"abc").toList false).2 rfl⟩

/-- Counterexample for C1 as stated: the well-formed buffer
`[A]\r\n;c\r\n[B]y=2\r\n` (a section header, a full-line comment, and a
line that is a section header per the format) loads to section `A` holding
the single key `[B]y = 2` — `IniCacheGetKeyName` swallows the bracketed
header following the comment as a key name.  Saving renders that key as the
line `[B]y=2`, which the second load now treats as a section header, giving
sections `A` (empty) and `B` (empty): the round trip does not preserve the
(section, keys) tuples. -/
theorem claim_C1_counterexample :
    IniCacheLoadFromMemory ("[A]\r\n;c\r\n[B]y=2\r\n").toList false =
      some (.success, [⟨"A".toList, [⟨"[B]y".toList, "2".toList⟩]⟩]) ∧
    IniCacheLoadFromMemory
        (IniCacheSaveText [⟨"A".toList, [⟨"[B]y".toList, "2".toList⟩]⟩]) false =
      some (.success, [⟨"A".toList, []⟩, ⟨"B".toList, []⟩]) ∧
    ([(⟨"A".toList, [⟨"[B]y".toList, "2".toList⟩]⟩ : INI_SECTION)] ≠
      [⟨"A".toList, []⟩, ⟨"B".toList, []⟩]) := by
  refine ⟨by decide, by decide, by decide⟩

/-! ## Totality of the load in non-quoted mode -/

theorem getKeyValue_false_ne_pastEnd (l : WStr) :
    IniCacheGetKeyValue l false ≠ .pastEnd := by
  unfold IniCacheGetKeyValue
  split
  · intro h
    exact GetValueResult.noConfusion h
  · rename_i c p2 heq
    by_cases hc : c = '='
    · rw [if_pos hc, if_neg (by simp)]
      intro h
      exact GetValueResult.noConfusion h
    · rw [if_neg hc]
      intro h
      exact GetValueResult.noConfusion h

theorem iniParse_isSome_false : ∀ (k : Nat) (Ptr : WStr), Ptr.length ≤ k →
    ∀ C S, (iniParse C S Ptr false).isSome := by
  intro k
  induction k with
  | zero =>
    intro Ptr hl C S
    have : Ptr = [] := List.eq_nil_of_length_eq_zero (Nat.le_zero.mp hl)
    subst this
    rw [iniParse_end C S [] false rfl]
    rfl
  | succ k ih =>
    intro Ptr hl C S
    cases hw : IniCacheSkipWhitespace Ptr with
    | none => rw [iniParse_end C S Ptr false hw]; rfl
    | some p0 =>
      rcases skipWhitespace_eq_some Ptr p0 hw with ⟨-, hne⟩
      cases p0 with
      | nil => exact absurd rfl hne
      | cons c p1 =>
        have hp0 : (c :: p1).length ≤ Ptr.length := skipWhitespace_le _ _ hw
        simp only [List.length_cons] at hp0
        by_cases hc : c = '['
        · subst hc
          cases ha : IniCacheAddSectionAorW C (IniCacheGetSectionName p1).1 with
          | none =>
            cases hs : IniCacheSkipToNextSection (IniCacheGetSectionName p1).2 with
            | none =>
              rw [iniParse_section_fail_end C S Ptr p1 false hw ha hs]; rfl
            | some r2 =>
              rw [iniParse_section_fail_skip C S Ptr p1 r2 false hw ha hs]
              have b1 := getSectionName_le p1
              have b2 := stns_le _ _ hs
              exact ih r2 (by omega) C none
          | some pr =>
            obtain ⟨i, C2⟩ := pr
            rw [iniParse_section C S Ptr p1 false i C2 hw ha]
            have b1 := getSectionName_le p1
            exact ih _ (by omega) C2 (some i)
        · cases S with
          | none =>
            cases hs : IniCacheSkipToNextSection (c :: p1) with
            | none => rw [iniParse_orphan_end C Ptr c p1 false hc hw hs]; rfl
            | some r2 =>
              rw [iniParse_orphan_skip C Ptr c p1 r2 false hc hw hs]
              have b2 := stns_lt c p1 r2 hc hs
              simp only [List.length_cons] at b2
              exact ih r2 (by omega) C none
          | some i =>
            cases hv : IniCacheGetKeyValue (IniCacheGetKeyName (c :: p1)).2 false with
            | noValue => rw [iniParse_noValue C i Ptr c p1 false hc hw hv]; rfl
            | pastEnd =>
              exact absurd hv (getKeyValue_false_ne_pastEnd _)
            | value d r =>
              rw [iniParse_value C i Ptr c p1 false d r hc hw hv]
              have b1 := getKeyName_rest_le (c :: p1)
              have b2 := getKeyValue_value_lt _ _ _ _ hv
              simp only [List.length_cons] at b1
              exact ih r (by omega) _ (some i)

/-- **C8.**  For every input buffer that the I/O layer successfully supplies
— including one with no usable entries at all — `IniCacheLoadFromMemory`
returns `STATUS_SUCCESS` with a (possibly empty) cache; in this model heap
allocation always succeeds, which is exactly the claim's "failing only on
allocation failure" proviso (the source returns
`STATUS_INSUFFICIENT_RESOURCES` when the header allocation fails).  In
non-quoted mode the load is defined on every buffer.  A query or read
failure instead makes `IniCacheLoadByHandle` return that error status
verbatim with `*Cache` left NULL, and on I/O success the parse result is
passed through — so callers can distinguish "could not read" (error, NULL
cache) from "read but empty" (success, empty cache). -/
theorem claim_C8 :
    (∀ buf str st c, IniCacheLoadFromMemory buf str = some (st, c) →
      st = NTSTATUS.success) ∧
    (∀ buf, ∃ c, IniCacheLoadFromMemory buf false = some (.success, c)) ∧
    (∀ e rs buf str, NT_SUCCESS e = false →
      IniCacheLoadByHandle e rs buf str = some (e, none)) ∧
    (∀ e buf str, NT_SUCCESS e = false →
      IniCacheLoadByHandle .success e buf str = some (e, none)) ∧
    (∀ buf str st c, IniCacheLoadFromMemory buf str = some (st, c) →
      IniCacheLoadByHandle .success .success buf str = some (st, some c)) := by
  refine ⟨?_, ?_, ?_, ?_, ?_⟩
  · intro buf str st c h
    unfold IniCacheLoadFromMemory at h
    cases hp : iniParse [] none buf str with
    | none => rw [hp] at h; exact Option.noConfusion h
    | some c2 =>
      rw [hp] at h
      simp only [Option.map_some', Option.some.injEq, Prod.mk.injEq] at h
      exact h.1.symm
  · intro buf
    have h := iniParse_isSome_false buf.length buf (le_refl _) [] none
    cases hp : iniParse [] none buf false with
    | none => rw [hp] at h; exact Bool.noConfusion h
    | some c =>
      refine ⟨c, ?_⟩
      unfold IniCacheLoadFromMemory
      rw [hp]
      rfl
  · intro e rs buf str he
    unfold IniCacheLoadByHandle
    rw [if_pos he]
  · intro e buf str he
    unfold IniCacheLoadByHandle
    rw [if_neg (by simp [NT_SUCCESS]), if_pos he]
  · intro buf str st c h
    unfold IniCacheLoadByHandle
    rw [if_neg (by simp [NT_SUCCESS]), if_neg (by simp [NT_SUCCESS]), h]
    rfl

/-- Witness for C8: the empty buffer loads as an empty cache with success;
a query failure and a read failure each propagate their error with a NULL
cache; a successful read of `[A]\r\nx=1\r\n` passes the parsed cache
through. -/
theorem claim_C8_witness :
    IniCacheLoadFromMemory [] false = some (.success, []) ∧
    IniCacheLoadByHandle (.ioError 5) .success [] false =
      some (.ioError 5, none) ∧
    IniCacheLoadByHandle .success (.ioError 7) [] false =
      some (.ioError 7, none) ∧
    IniCacheLoadByHandle .success .success ("[A]\r\nx=1\r\n").toList false =
      some (.success, some [⟨"A".toList, [⟨"x".toList, "1".toList⟩]⟩]) :=
  ⟨by decide,
   claim_C8.2.2.1 (.ioError 5) .success [] false (by decide),
   claim_C8.2.2.2.1 (.ioError 7) [] false (by decide),
   claim_C8.2.2.2.2 ("[A]\r\nx=1\r\n").toList false .success
     [⟨"A".toList, [⟨"x".toList, "1".toList⟩]⟩] (by decide)⟩

/-! ## Helpers for the round-trip development -/

theorem takeWhile_head (p : α → Bool) (l : List α) (c : α) (r : List α)
    (h : l.takeWhile p = c :: r) : l.head? = some c := by
  cases l with
  | nil => simp at h
  | cons b t =>
    by_cases hb : p b
    · simp [List.takeWhile_cons, hb] at h
      simp [h.1]
    · simp [List.takeWhile_cons, hb] at h

theorem set_same (l : List α) (j : Nat) (a : α) (h : l.get? j = some a) :
    l.set j a = l := by
  induction l generalizing j with
  | nil => simp at h
  | cons b t ih =>
    cases j with
    | zero =>
      simp only [List.get?] at h
      injection h with h
      rw [h]
      rfl
    | succ j =>
      simp only [List.get?] at h
      simp [List.set, ih j h]

theorem mem_set_imp (l : List α) (j : Nat) (a b : α)
    (h : b ∈ l.set j a) : b = a ∨ b ∈ l := by
  induction l generalizing j with
  | nil => simp at h
  | cons c t ih =>
    cases j with
    | zero =>
      rcases List.mem_cons.mp h with rfl | h
      · exact Or.inl rfl
      · exact Or.inr (by simp [h])
    | succ j =>
      rcases List.mem_cons.mp h with rfl | h
      · exact Or.inr (by simp)
      · rcases ih j h with h | h
        · exact Or.inl h
        · exact Or.inr (by simp [h])

theorem map_set (f : α → β) (l : List α) (j : Nat) (x : α) :
    (l.set j x).map f = (l.map f).set j (f x) := by
  induction l generalizing j with
  | nil => rfl
  | cons c t ih =>
    cases j with
    | zero => rfl
    | succ j => simp [List.set, ih]

theorem get?_append_singleton (l : List α) (a : α) :
    (l ++ [a]).get? l.length = some a := by
  induction l with
  | nil => rfl
  | cons b t ih => simpa using ih

theorem get?_mem (l : List α) (i : Nat) (a : α) (h : l.get? i = some a) :
    a ∈ l := by
  induction l generalizing i with
  | nil => simp at h
  | cons b t ih =>
    cases i with
    | zero =>
      simp only [List.get?] at h
      injection h with h
      simp [← h]
    | succ i =>
      simp only [List.get?] at h
      simp [ih i h]

theorem skipWhitespace_cons_false (c : Char) (l : WStr)
    (h : isspace c = false) :
    IniCacheSkipWhitespace (c :: l) = some (c :: l) := by
  unfold IniCacheSkipWhitespace
  rw [dropWhile_cons_false isspace c l h]

/-- Parsing behavior depends on the cursor only through its
whitespace-normal form. -/
theorem iniParse_congr_ws (C : INICACHE) (S : Option Nat) (str : Bool)
    (Ptr1 Ptr2 : WStr)
    (h : Ptr1.dropWhile isspace = Ptr2.dropWhile isspace) :
    iniParse C S Ptr1 str = iniParse C S Ptr2 str := by
  have h1 : IniCacheSkipWhitespace Ptr1 = IniCacheSkipWhitespace Ptr2 := by
    unfold IniCacheSkipWhitespace
    rw [h]
  cases hw : IniCacheSkipWhitespace Ptr2 with
  | none =>
    rw [iniParse_end C S Ptr1 str (h1.trans hw), iniParse_end C S Ptr2 str hw]
  | some p0 =>
    have hw1 : IniCacheSkipWhitespace Ptr1 = some p0 := h1.trans hw
    rcases skipWhitespace_eq_some Ptr2 p0 hw with ⟨-, hne⟩
    cases p0 with
    | nil => exact absurd rfl hne
    | cons c p1 =>
      by_cases hc : c = '['
      · subst hc
        cases ha : IniCacheAddSectionAorW C (IniCacheGetSectionName p1).1 with
        | none =>
          cases hs : IniCacheSkipToNextSection (IniCacheGetSectionName p1).2 with
          | none =>
            rw [iniParse_section_fail_end C S Ptr1 p1 str hw1 ha hs,
                iniParse_section_fail_end C S Ptr2 p1 str hw ha hs]
          | some r2 =>
            rw [iniParse_section_fail_skip C S Ptr1 p1 r2 str hw1 ha hs,
                iniParse_section_fail_skip C S Ptr2 p1 r2 str hw ha hs]
        | some pr =>
          obtain ⟨i, C2⟩ := pr
          rw [iniParse_section C S Ptr1 p1 str i C2 hw1 ha,
              iniParse_section C S Ptr2 p1 str i C2 hw ha]
      · cases S with
        | none =>
          cases hs : IniCacheSkipToNextSection (c :: p1) with
          | none =>
            rw [iniParse_orphan_end C Ptr1 c p1 str hc hw1 hs,
                iniParse_orphan_end C Ptr2 c p1 str hc hw hs]
          | some r2 =>
            rw [iniParse_orphan_skip C Ptr1 c p1 r2 str hc hw1 hs,
                iniParse_orphan_skip C Ptr2 c p1 r2 str hc hw hs]
        | some i =>
          cases hv : IniCacheGetKeyValue (IniCacheGetKeyName (c :: p1)).2 str with
          | noValue =>
            rw [iniParse_noValue C i Ptr1 c p1 str hc hw1 hv,
                iniParse_noValue C i Ptr2 c p1 str hc hw hv]
          | pastEnd =>
            rw [iniParse_pastEnd C i Ptr1 c p1 str hc hw1 hv,
                iniParse_pastEnd C i Ptr2 c p1 str hc hw hv]
          | value d r =>
            rw [iniParse_value C i Ptr1 c p1 str d r hc hw1 hv,
                iniParse_value C i Ptr2 c p1 str d r hc hw hv]

/-! ## Scanning the serializer's output -/

theorem getSectionName_clean (nm tail : WStr) (hnm : goodSectionName nm) :
    IniCacheGetSectionName (nm ++ ']' :: '\r' :: '\n' :: tail) = (nm, tail) := by
  obtain ⟨c0, nr, rfl⟩ : ∃ c0 nr, nm = c0 :: nr := by
    cases nm with
    | nil => exact absurd rfl hnm.1
    | cons a b => exact ⟨a, b, rfl⟩
  have hsp : isspace c0 = false := hnm.2.1 c0 rfl
  have hchars : ∀ c ∈ c0 :: nr, notRBracket c = true := by
    intro c hc
    have : c ≠ ']' := fun hh => hnm.2.2 (hh ▸ hc)
    simp [notRBracket, this]
  have hd : ((c0 :: nr) ++ ']' :: '\r' :: '\n' :: tail).dropWhile isspace =
      (c0 :: nr) ++ ']' :: '\r' :: '\n' :: tail := by
    rw [List.cons_append]
    exact dropWhile_cons_false isspace c0 _ hsp
  unfold IniCacheGetSectionName
  rw [hd]
  rw [takeWhile_append_stop notRBracket (c0 :: nr) ']' ('\r' :: '\n' :: tail)
      hchars (by decide)]
  rw [dropWhile_append_stop notRBracket (c0 :: nr) ']' ('\r' :: '\n' :: tail)
      hchars (by decide)]
  simp only [List.tail_cons]
  rw [show ('\r' :: '\n' :: tail).dropWhile notNl = '\n' :: tail from by
    simp [List.dropWhile_cons, notNl]]
  rfl

theorem getKeyName_line (n t : WStr) (hn : n ≠ [])
    (hchars : ∀ c ∈ n, keyNameChar c = true) :
    IniCacheGetKeyName (n ++ '=' :: t) = (n, '=' :: t) := by
  obtain ⟨c0, nr, rfl⟩ : ∃ c0 nr, n = c0 :: nr := by
    cases n with
    | nil => exact absurd rfl hn
    | cons a b => exact ⟨a, b, rfl⟩
  have hc0 : keyNameChar c0 = true := hchars c0 (by simp)
  have hsp : isspace c0 = false := by
    unfold keyNameChar at hc0
    cases hi : isspace c0
    · rfl
    · rw [hi] at hc0
      simp at hc0
  have hd2 : ((c0 :: nr) ++ '=' :: t).dropWhile isspace =
      c0 :: (nr ++ '=' :: t) := by
    rw [List.cons_append]
    exact dropWhile_cons_false isspace c0 _ hsp
  have htake2 : (c0 :: (nr ++ '=' :: t)).takeWhile keyNameChar = c0 :: nr := by
    rw [← List.cons_append]
    exact takeWhile_append_stop _ _ _ _ hchars (by decide)
  have hdrop2 : (c0 :: (nr ++ '=' :: t)).dropWhile keyNameChar = '=' :: t := by
    rw [← List.cons_append]
    exact dropWhile_append_stop _ _ _ _ hchars (by decide)
  have hsemi : ¬(('=' :: t).head? = some ';') := by simp
  simp only [IniCacheGetKeyName, IniCacheGetKeyNameF, hd2, hdrop2]
  rw [if_neg hsemi, htake2]

theorem getKeyValue_line (d t : WStr) (str : Bool) (hd2 : d ≠ [])
    (hchars : ∀ c ∈ d, valueChar c = true)
    (hhead : ∀ c, d.head? = some c → isspace c = false)
    (hq : str = true → d.head? ≠ some '"') :
    IniCacheGetKeyValue ('=' :: (d ++ '\r' :: '\n' :: t)) str =
      .value d t := by
  obtain ⟨c0, dr, rfl⟩ : ∃ c0 dr, d = c0 :: dr := by
    cases d with
    | nil => exact absurd rfl hd2
    | cons a b => exact ⟨a, b, rfl⟩
  have hsp : isspace c0 = false := hhead c0 rfl
  have hded : (('=' : Char) :: ((c0 :: dr) ++ '\r' :: '\n' :: t)).dropWhile isspace =
      '=' :: ((c0 :: dr) ++ '\r' :: '\n' :: t) :=
    dropWhile_cons_false isspace '=' _ (by decide)
  have hdd : ((c0 :: dr) ++ '\r' :: '\n' :: t).dropWhile isspace =
      (c0 :: dr) ++ '\r' :: '\n' :: t := by
    rw [List.cons_append]
    exact dropWhile_cons_false isspace c0 _ hsp
  have htake : ((c0 :: dr) ++ '\r' :: '\n' :: t).takeWhile valueChar = c0 :: dr :=
    takeWhile_append_stop _ _ _ _ hchars (by decide)
  have hdrop : ((c0 :: dr) ++ '\r' :: '\n' :: t).dropWhile valueChar =
      '\r' :: '\n' :: t :=
    dropWhile_append_stop _ _ _ _ hchars (by decide)
  simp only [IniCacheGetKeyValue, hded]
  have hcond : ¬(str = true ∧
      (((c0 :: dr) ++ '\r' :: '\n' :: t).dropWhile isspace).head? = some '"') := by
    rintro ⟨hs, hh⟩
    rw [hdd] at hh
    rw [List.cons_append] at hh
    simp only [List.head?] at hh
    injection hh with hh
    exact hq hs (by simp [hh])
  rw [if_neg hcond]
  rw [hdd, htake, hdrop]
  rw [show skipNewLine ('\r' :: '\n' :: t) = t from by
    unfold skipNewLine
    simp]
  simp

/-! ## Re-parsing the serializer's output -/

theorem reload_section_step (C : INICACHE) (S : Option Nat) (nm tail : WStr)
    (hnm : goodSectionName nm) (hfresh : IniCacheFindSection C nm = none) :
    iniParse C S ('[' :: (nm ++ ']' :: '\r' :: '\n' :: tail)) false =
      iniParse (C ++ [⟨nm, []⟩]) (some C.length) tail false := by
  have hw : IniCacheSkipWhitespace ('[' :: (nm ++ ']' :: '\r' :: '\n' :: tail)) =
      some ('[' :: (nm ++ ']' :: '\r' :: '\n' :: tail)) :=
    skipWhitespace_cons_false '[' _ (by decide)
  have hgsn := getSectionName_clean nm tail hnm
  have hadd : IniCacheAddSectionAorW C
      (IniCacheGetSectionName (nm ++ ']' :: '\r' :: '\n' :: tail)).1 =
      some (C.length, C ++ [⟨nm, []⟩]) := by
    simp only [hgsn]
    unfold IniCacheAddSectionAorW
    rw [if_neg hnm.1, hfresh]
  rw [iniParse_section C S ('[' :: (nm ++ ']' :: '\r' :: '\n' :: tail))
      (nm ++ ']' :: '\r' :: '\n' :: tail) false C.length (C ++ [⟨nm, []⟩])
      hw hadd]
  rw [hgsn]

theorem reload_key_step (C : INICACHE) (i : Nat) (nm : WStr)
    (ks : List INI_KEYWORD) (k : INI_KEYWORD) (tail : WStr)
    (hget : C.get? i = some ⟨nm, ks⟩)
    (hWF : WFKey k) (hNB : k.name.head? ≠ some '[')
    (hfresh : ∀ k2 ∈ ks, wcsicmpEq k2.name k.name = false) :
    iniParse C (some i) (keyLineText k ++ tail) false =
      iniParse (C.set i ⟨nm, ks ++ [k]⟩) (some i) tail false := by
  obtain ⟨c0, nr, hk⟩ : ∃ c0 nr, k.name = c0 :: nr := by
    cases hx : k.name with
    | nil => exact absurd hx hWF.1.1
    | cons a b => exact ⟨a, b, rfl⟩
  have hc0 : keyNameChar c0 = true := hWF.1.2 c0 (by rw [hk]; simp)
  have hsp : isspace c0 = false := by
    unfold keyNameChar at hc0
    cases hi : isspace c0
    · rfl
    · rw [hi] at hc0
      simp at hc0
  have hc : c0 ≠ '[' := by
    intro hh
    apply hNB
    rw [hk, hh]
    rfl
  have hshape : keyLineText k ++ tail =
      c0 :: (nr ++ '=' :: (k.data ++ '\r' :: '\n' :: tail)) := by
    unfold keyLineText
    rw [hk]
    simp [List.append_assoc]
  have hw : IniCacheSkipWhitespace
      (c0 :: (nr ++ '=' :: (k.data ++ '\r' :: '\n' :: tail))) =
      some (c0 :: (nr ++ '=' :: (k.data ++ '\r' :: '\n' :: tail))) :=
    skipWhitespace_cons_false c0 _ hsp
  have hgkn : IniCacheGetKeyName
      (c0 :: (nr ++ '=' :: (k.data ++ '\r' :: '\n' :: tail))) =
      (k.name, '=' :: (k.data ++ '\r' :: '\n' :: tail)) := by
    rw [← List.cons_append, ← hk]
    exact getKeyName_line k.name (k.data ++ '\r' :: '\n' :: tail)
      hWF.1.1 hWF.1.2
  have hgkv : IniCacheGetKeyValue ('=' :: (k.data ++ '\r' :: '\n' :: tail))
      false = .value k.data tail :=
    getKeyValue_line k.data tail false hWF.2.1 hWF.2.2.1 hWF.2.2.2
      (fun h => Bool.noConfusion h)
  have hv : IniCacheGetKeyValue
      (IniCacheGetKeyName
        (c0 :: (nr ++ '=' :: (k.data ++ '\r' :: '\n' :: tail)))).2 false =
      .value k.data tail := by
    simp only [hgkn]
    exact hgkv
  rw [hshape]
  rw [iniParse_value C i _ c0 (nr ++ '=' :: (k.data ++ '\r' :: '\n' :: tail))
      false k.data tail hc hw hv]
  have hlast : IniCacheAddKeyAorW ks .nullAnchor .INSERT_LAST k.name k.data =
      (.atIndex ks.length, ks ++ [k]) := by
    have := addKeyAorW_last ks k.name k.data hWF.1.1 hWF.2.1
      (findKey_none_of_all ks k.name hfresh)
    rw [this]
  simp only [hget, hgkn, hlast]

theorem reload_keys : ∀ (todo ks : List INI_KEYWORD) (done : INICACHE)
    (nm TAIL : WStr),
    (∀ k ∈ todo, WFKey k ∧ k.name.head? ≠ some '[') →
    List.Pairwise (fun a b => wcsicmpEq a.name b.name = false) (ks ++ todo) →
    iniParse (done ++ [⟨nm, ks⟩]) (some done.length)
        (keysText todo ++ TAIL) false =
      iniParse (done ++ [⟨nm, ks ++ todo⟩]) (some done.length) TAIL false := by
  intro todo
  induction todo with
  | nil =>
    intro ks done nm TAIL h1 h2
    simp [keysText]
  | cons k kt ih =>
    intro ks done nm TAIL h1 h2
    have hshape : keysText (k :: kt) ++ TAIL =
        keyLineText k ++ (keysText kt ++ TAIL) := by
      simp [keysText, List.append_assoc]
    rw [hshape]
    have hget : (done ++ [(⟨nm, ks⟩ : INI_SECTION)]).get? done.length =
        some ⟨nm, ks⟩ := get?_append_singleton done ⟨nm, ks⟩
    have hfresh : ∀ k2 ∈ ks, wcsicmpEq k2.name k.name = false := by
      intro k2 hk2
      exact (List.pairwise_append.mp h2).2.2 k2 hk2 k (by simp)
    have hkey := reload_key_step (done ++ [(⟨nm, ks⟩ : INI_SECTION)])
        done.length nm ks k (keysText kt ++ TAIL) hget
        (h1 k (by simp)).1 (h1 k (by simp)).2 hfresh
    rw [hkey]
    rw [set_append_singleton done ⟨nm, ks⟩ ⟨nm, ks ++ [k]⟩]
    have h2b : List.Pairwise (fun a b => wcsicmpEq a.name b.name = false)
        ((ks ++ [k]) ++ kt) := by
      rw [List.append_assoc]
      simpa using h2
    rw [ih (ks ++ [k]) done nm TAIL (fun k2 hk2 => h1 k2 (by simp [hk2])) h2b]
    simp [List.append_assoc]

theorem reload_sections : ∀ (todo done : INICACHE) (S : Option Nat),
    (∀ s ∈ todo, WFSection s) →
    (∀ s ∈ todo, ∀ k ∈ s.keys, k.name.head? ≠ some '[') →
    sectionsDistinct (done ++ todo) →
    iniParse done S (IniCacheSaveText todo) false = some (done ++ todo) := by
  intro todo
  induction todo with
  | nil =>
    intro done S h1 h2 h3
    rw [show IniCacheSaveText [] = [] from rfl]
    rw [iniParse_end done S [] false rfl]
    simp
  | cons s rest ih =>
    intro done S h1 h2 h3
    have hWS := h1 s (by simp)
    have hfresh : IniCacheFindSection done s.name = none := by
      apply findSection_none_of_all
      intro d hd
      exact (List.pairwise_append.mp h3).2.2 d hd s (by simp)
    cases rest with
    | nil =>
      have hshape : IniCacheSaveText [s] =
          '[' :: (s.name ++ ']' :: '\r' :: '\n' :: (keysText s.keys ++ [])) := by
        show ('[' :: (s.name ++ ']' :: ['\r', '\n'])) ++ keysText s.keys ++ [] = _
        simp [List.append_assoc]
      rw [hshape]
      rw [reload_section_step done S s.name (keysText s.keys ++ [])
          hWS.1 hfresh]
      rw [reload_keys s.keys [] done s.name []
          (fun k hk => ⟨hWS.2.1 k hk, h2 s (by simp) k hk⟩)
          (by simpa using hWS.2.2)]
      rw [iniParse_end _ _ [] false rfl]
      simp
    | cons s2 r2 =>
      have hshape : IniCacheSaveText (s :: s2 :: r2) =
          '[' :: (s.name ++ ']' :: '\r' :: '\n' ::
            (keysText s.keys ++ ('\r' :: '\n' :: IniCacheSaveText (s2 :: r2)))) := by
        show ('[' :: (s.name ++ ']' :: ['\r', '\n'])) ++ keysText s.keys ++
            ('\r' :: '\n' :: IniCacheSaveText (s2 :: r2)) = _
        simp [List.append_assoc]
      rw [hshape]
      rw [reload_section_step done S s.name
          (keysText s.keys ++ ('\r' :: '\n' :: IniCacheSaveText (s2 :: r2)))
          hWS.1 hfresh]
      rw [reload_keys s.keys [] done s.name
          ('\r' :: '\n' :: IniCacheSaveText (s2 :: r2))
          (fun k hk => ⟨hWS.2.1 k hk, h2 s (by simp) k hk⟩)
          (by simpa using hWS.2.2)]
      rw [iniParse_congr_ws _ _ false
          ('\r' :: '\n' :: IniCacheSaveText (s2 :: r2))
          (IniCacheSaveText (s2 :: r2))
          (by simp [List.dropWhile_cons, isspace])]
      have hs : (⟨s.name, [] ++ s.keys⟩ : INI_SECTION) = s := by
        simp
      rw [hs]
      rw [ih (done ++ [s]) (some done.length)
          (fun t ht => h1 t (by simp [ht]))
          (fun t ht => h2 t (by simp [ht]))
          (by rw [List.append_assoc]; simpa using h3)]
      simp

/-! ## The parser only builds well-formed caches (non-quoted mode) -/

theorem map_get?_eq (f : α → β) (l : List α) (i : Nat) :
    (l.map f).get? i = (l.get? i).map f := by
  induction l generalizing i with
  | nil => cases i <;> rfl
  | cons a t ih =>
    cases i with
    | zero => rfl
    | succ j =>
      simp only [List.map_cons, List.get?]
      exact ih j

theorem getSectionName_good (p1 : WStr)
    (h : (IniCacheGetSectionName p1).1 ≠ []) :
    goodSectionName (IniCacheGetSectionName p1).1 := by
  unfold IniCacheGetSectionName at h ⊢
  simp only [] at h ⊢
  unfold goodSectionName
  refine ⟨h, ?_, ?_⟩
  · intro c hc
    cases ht : (p1.dropWhile isspace).takeWhile notRBracket with
    | nil => rw [ht] at hc; exact Option.noConfusion hc
    | cons y ys =>
      rw [ht] at hc
      have hy : y = c := by simpa using hc
      have hh := takeWhile_head notRBracket (p1.dropWhile isspace) y ys ht
      cases hd : p1.dropWhile isspace with
      | nil => rw [hd] at hh; exact Option.noConfusion hh
      | cons z zs =>
        rw [hd] at hh
        have hz : z = y := by simpa using hh
        have hzf := head_dropWhile_false isspace p1 z zs hd
        rw [hz, hy] at hzf
        exact hzf
  · intro hmem
    have := (mem_of_mem_takeWhile notRBracket _ _ hmem).1
    simp [notRBracket] at this

theorem getKeyValue_false_shape (l d r : WStr)
    (h : IniCacheGetKeyValue l false = .value d r) :
    (∀ c ∈ d, valueChar c = true) ∧
      (∀ c, d.head? = some c → isspace c = false) := by
  unfold IniCacheGetKeyValue at h
  split at h
  · exact GetValueResult.noConfusion h
  · rename_i c p2 heq
    split at h
    · split at h
      · rename_i hq
        exact absurd hq.1 (by simp)
      · simp only [GetValueResult.value.injEq] at h
        rcases h with ⟨hd, -⟩
        subst hd
        constructor
        · intro x hx
          exact (mem_of_mem_takeWhile _ _ _ hx).1
        · intro x hx
          cases ht : (p2.dropWhile isspace).takeWhile valueChar with
          | nil => rw [ht] at hx; exact Option.noConfusion hx
          | cons y ys =>
            rw [ht] at hx
            have hy : y = x := by simpa using hx
            have hh := takeWhile_head valueChar (p2.dropWhile isspace) y ys ht
            cases hdw : p2.dropWhile isspace with
            | nil => rw [hdw] at hh; exact Option.noConfusion hh
            | cons z zs =>
              rw [hdw] at hh
              have hz : z = y := by simpa using hh
              have hzf := head_dropWhile_false isspace p2 z zs hdw
              rw [hz, hy] at hzf
              exact hzf
    · exact GetValueResult.noConfusion h

theorem addKeyList_WF (ks : List INI_KEYWORD) (nm2 d : WStr)
    (hks : ∀ k ∈ ks, WFKey k) (hdist : keysDistinct ks)
    (hnmc : ∀ c ∈ nm2, keyNameChar c = true)
    (hdc : ∀ c ∈ d, valueChar c = true)
    (hdh : ∀ c, d.head? = some c → isspace c = false) :
    (∀ k ∈ (IniCacheAddKeyAorW ks .nullAnchor .INSERT_LAST nm2 d).2, WFKey k) ∧
      keysDistinct (IniCacheAddKeyAorW ks .nullAnchor .INSERT_LAST nm2 d).2 := by
  by_cases hn : nm2 = []
  · subst hn
    rw [addKeyAorW_empty_name]
    exact ⟨hks, hdist⟩
  by_cases hd : d = []
  · subst hd
    rw [addKeyAorW_empty_data]
    exact ⟨hks, hdist⟩
  cases hf : IniCacheFindKey ks nm2 with
  | some p =>
    obtain ⟨j, k0⟩ := p
    rw [addKeyAorW_update ks _ _ nm2 d j k0 hn hd hf]
    have hget : ks.get? j = some k0 := (findKey_some ks nm2 j k0 hf).1
    constructor
    · intro k hk
      rcases mem_set_imp ks j ⟨k0.name, d⟩ k hk with hk | hk
      · subst hk
        have hk0 : WFKey k0 := hks k0 (get?_mem ks j k0 hget)
        exact ⟨hk0.1, hd, hdc, hdh⟩
      · exact hks k hk
    · have hnames : (ks.set j ⟨k0.name, d⟩).map (fun k => k.name) =
          ks.map (fun k => k.name) := by
        rw [map_set]
        apply set_same
        rw [map_get?_eq, hget]
        rfl
      have h1 : List.Pairwise (fun x y => wcsicmpEq x y = false)
          (ks.map (fun k => k.name)) := List.pairwise_map.mpr hdist
      rw [← hnames] at h1
      exact List.pairwise_map.mp h1
  | none =>
    rw [addKeyAorW_last ks nm2 d hn hd hf]
    constructor
    · intro k hk
      rcases List.mem_append.mp hk with hk | hk
      · exact hks k hk
      · have hk2 : k = ⟨nm2, d⟩ := by simpa using hk
        subst hk2
        exact ⟨⟨hn, hnmc⟩, hd, hdc, hdh⟩
    · unfold keysDistinct
      refine List.pairwise_append.mpr ⟨hdist, by simp, ?_⟩
      intro a ha b hb
      have hb2 : b = ⟨nm2, d⟩ := by simpa using hb
      subst hb2
      show wcsicmpEq a.name nm2 = false
      exact findKey_none ks nm2 hf a ha

theorem setKey_WF (C : INICACHE) (i : Nat) (s : INI_SECTION) (nm2 d : WStr)
    (hWF : WFCache C) (hg : C.get? i = some s)
    (hnmc : ∀ x ∈ nm2, keyNameChar x = true)
    (hdc : ∀ x ∈ d, valueChar x = true)
    (hdh : ∀ x, d.head? = some x → isspace x = false) :
    WFCache (C.set i ⟨s.name,
      (IniCacheAddKeyAorW s.keys .nullAnchor .INSERT_LAST nm2 d).2⟩) := by
  have hsWF : WFSection s := hWF.1 s (get?_mem C i s hg)
  have hks := addKeyList_WF s.keys nm2 d hsWF.2.1 hsWF.2.2 hnmc hdc hdh
  constructor
  · intro t ht
    rcases mem_set_imp C i _ t ht with ht | ht
    · subst ht
      exact ⟨hsWF.1, hks.1, hks.2⟩
    · exact hWF.1 t ht
  · have hnames : (C.set i ⟨s.name,
        (IniCacheAddKeyAorW s.keys .nullAnchor .INSERT_LAST nm2 d).2⟩).map
          (fun t => t.name) = C.map (fun t => t.name) := by
      rw [map_set]
      apply set_same
      rw [map_get?_eq, hg]
      rfl
    have h1 : List.Pairwise (fun x y => wcsicmpEq x y = false)
        (C.map (fun t => t.name)) := List.pairwise_map.mpr hWF.2
    rw [← hnames] at h1
    exact List.pairwise_map.mp h1

theorem addSection_WF (C : INICACHE) (nm : WStr) (i : Nat) (C3 : INICACHE)
    (hWF : WFCache C) (hgood : nm ≠ [] → goodSectionName nm)
    (ha : IniCacheAddSectionAorW C nm = some (i, C3)) :
    WFCache C3 := by
  unfold IniCacheAddSectionAorW at ha
  by_cases hnm : nm = []
  · rw [if_pos hnm] at ha
    exact Option.noConfusion ha
  · rw [if_neg hnm] at ha
    cases hf : IniCacheFindSection C nm with
    | some j =>
      rw [hf] at ha
      simp only [Option.some.injEq, Prod.mk.injEq] at ha
      rcases ha with ⟨-, rfl⟩
      exact hWF
    | none =>
      rw [hf] at ha
      simp only [Option.some.injEq, Prod.mk.injEq] at ha
      rcases ha with ⟨-, rfl⟩
      constructor
      · intro s hs
        rcases List.mem_append.mp hs with hs | hs
        · exact hWF.1 s hs
        · have hs2 : s = ⟨nm, []⟩ := by simpa using hs
          subst hs2
          exact ⟨hgood hnm, by simp, by simp [keysDistinct]⟩
      · unfold sectionsDistinct
        refine List.pairwise_append.mpr ⟨hWF.2, by simp, ?_⟩
        intro a ha2 b hb
        have hb2 : b = ⟨nm, []⟩ := by simpa using hb
        subst hb2
        show wcsicmpEq a.name nm = false
        exact findSection_none C nm hf a ha2

theorem iniParse_WF : ∀ (k : Nat) (Ptr : WStr), Ptr.length ≤ k →
    ∀ (C : INICACHE) (S : Option Nat) (C2 : INICACHE),
    WFCache C → iniParse C S Ptr false = some C2 → WFCache C2 := by
  intro k
  induction k with
  | zero =>
    intro Ptr hl C S C2 hWF hp
    have hPtr : Ptr = [] := List.eq_nil_of_length_eq_zero (Nat.le_zero.mp hl)
    subst hPtr
    rw [iniParse_end C S [] false rfl] at hp
    injection hp with h
    subst h
    exact hWF
  | succ k ih =>
    intro Ptr hl C S C2 hWF hp
    cases hw : IniCacheSkipWhitespace Ptr with
    | none =>
      rw [iniParse_end C S Ptr false hw] at hp
      injection hp with h
      subst h
      exact hWF
    | some p0 =>
      cases p0 with
      | nil => exact absurd rfl (skipWhitespace_eq_some Ptr [] hw).2
      | cons c p1 =>
        have hp0 : (c :: p1).length ≤ Ptr.length := skipWhitespace_le _ _ hw
        simp only [List.length_cons] at hp0
        by_cases hc : c = '['
        · subst hc
          cases ha : IniCacheAddSectionAorW C (IniCacheGetSectionName p1).1 with
          | none =>
            cases hs : IniCacheSkipToNextSection (IniCacheGetSectionName p1).2 with
            | none =>
              rw [iniParse_section_fail_end C S Ptr p1 false hw ha hs] at hp
              injection hp with h
              subst h
              exact hWF
            | some r2 =>
              rw [iniParse_section_fail_skip C S Ptr p1 r2 false hw ha hs] at hp
              have b1 := getSectionName_le p1
              have b2 := stns_le _ _ hs
              exact ih r2 (by omega) C none C2 hWF hp
          | some pr =>
            obtain ⟨i, C3⟩ := pr
            rw [iniParse_section C S Ptr p1 false i C3 hw ha] at hp
            have b1 := getSectionName_le p1
            have hWF3 : WFCache C3 :=
              addSection_WF C (IniCacheGetSectionName p1).1 i C3 hWF
                (fun h => getSectionName_good p1 h) ha
            exact ih _ (by omega) C3 (some i) C2 hWF3 hp
        · cases S with
          | none =>
            cases hs : IniCacheSkipToNextSection (c :: p1) with
            | none =>
              rw [iniParse_orphan_end C Ptr c p1 false hc hw hs] at hp
              injection hp with h
              subst h
              exact hWF
            | some r2 =>
              rw [iniParse_orphan_skip C Ptr c p1 r2 false hc hw hs] at hp
              have b2 := stns_lt c p1 r2 hc hs
              simp only [List.length_cons] at b2
              exact ih r2 (by omega) C none C2 hWF hp
          | some i =>
            cases hv : IniCacheGetKeyValue (IniCacheGetKeyName (c :: p1)).2 false with
            | noValue =>
              rw [iniParse_noValue C i Ptr c p1 false hc hw hv] at hp
              injection hp with h
              subst h
              exact hWF
            | pastEnd =>
              rw [iniParse_pastEnd C i Ptr c p1 false hc hw hv] at hp
              exact Option.noConfusion hp
            | value d r =>
              rw [iniParse_value C i Ptr c p1 false d r hc hw hv] at hp
              have b1 := getKeyName_rest_le (c :: p1)
              have b2 := getKeyValue_value_lt _ _ _ _ hv
              simp only [List.length_cons] at b1
              have hshape := getKeyValue_false_shape _ d r hv
              cases hg : C.get? i with
              | none =>
                simp only [hg] at hp
                exact ih r (by omega) C (some i) C2 hWF hp
              | some s =>
                simp only [hg] at hp
                have hWF3 := setKey_WF C i s (IniCacheGetKeyName (c :: p1)).1 d
                  hWF hg (fun x hx => getKeyName_name_chars _ x hx)
                  hshape.1 hshape.2
                exact ih r (by omega) _ (some i) C2 hWF3 hp

/-- **C1 (amended).**  In non-quoted mode, the load → save → load round trip
reproduces the cache exactly, provided no loaded key name begins with `[`
(the parser can produce such keys — see the counterexample — and they
re-serialize as section headers): if `IniCacheLoadFromMemory` returns a
cache `C` with `noBracketKeys C`, then loading the text rendered by
`IniCacheSaveByHandle`'s buffer fill for `C` yields success with exactly
`C` again — the same ordered sequence of (section name, [(key name,
value), ...]) tuples. -/
theorem claim_C1 (buf : WStr) (C : INICACHE)
    (h1 : IniCacheLoadFromMemory buf false = some (.success, C))
    (h2 : noBracketKeys C) :
    IniCacheLoadFromMemory (IniCacheSaveText C) false = some (.success, C) := by
  unfold IniCacheLoadFromMemory at h1 ⊢
  cases hq : iniParse [] none buf false with
  | none =>
    rw [hq] at h1
    exact Option.noConfusion h1
  | some C0 =>
    rw [hq] at h1
    simp only [Option.map_some', Option.some.injEq, Prod.mk.injEq] at h1
    have hC : C0 = C := h1.2
    subst hC
    have hWF : WFCache C0 :=
      iniParse_WF buf.length buf (le_refl _) [] none C0
        ⟨by simp, by simp [sectionsDistinct]⟩ hq
    rw [reload_sections C0 [] none (fun s hs => hWF.1 s hs)
        (fun s hs k hk => h2 s hs k hk)
        (by simp only [List.nil_append]; exact hWF.2)]
    simp

theorem claim_C1_witness :
    IniCacheLoadFromMemory ("[A]\r\nx=1\r\n").toList false =
      some (.success, [⟨"A".toList, [⟨"x".toList, "1".toList⟩]⟩]) ∧
    noBracketKeys [⟨"A".toList, [⟨"x".toList, "1".toList⟩]⟩] ∧
    IniCacheLoadFromMemory
        (IniCacheSaveText [⟨"A".toList, [⟨"x".toList, "1".toList⟩]⟩]) false =
      some (.success, [⟨"A".toList, [⟨"x".toList, "1".toList⟩]⟩]) :=
  ⟨by decide, by unfold noBracketKeys; decide,
    claim_C1 ("[A]\r\nx=1\r\n").toList
      [⟨"A".toList, [⟨"x".toList, "1".toList⟩]⟩] (by decide)
      (by unfold noBracketKeys; decide)⟩
